import Mathlib

/-!
Verification development for the group-sparse multi-task Gaussian
graphical model solver (`nilearn/group_sparse_covariance.py`).

The numeric kernel is embedded shallowly over `ℚ`: NumPy arrays become
functions out of `Fin` types, in-place updates become explicit state
passing, and the one fallible external call (`scipy.optimize.newton`,
which raises `RuntimeError` when its iteration budget is exhausted)
returns `Option`.  A stack indexed by the task dimension becomes a
function `Fin K → _`.
-/

open Matrix

attribute [local semireducible] Rat.add Rat.mul Rat.sub Rat.inv

namespace GroupSparse

/-- Possible float value passed as `rho`, including the IEEE specials.
Only the comparison of the value with `0` is needed to model the guard at
lines 276-279, so no float arithmetic is modelled. -/
inductive PyFloat where
  | finite (q : ℚ)
  | inf
  | neginf
  | nan
deriving DecidableEq

/-- Dynamic Python value for the `rho` argument: a number (`int`/`float`)
or any non-numeric object. -/
inductive PyVal where
  | num (f : PyFloat)
  | nonNumeric
deriving DecidableEq

/-- IEEE-754 semantics of the Python expression `rho < 0`: `nan < 0` and
`inf < 0` are `False`, `-inf < 0` is `True`. -/
def pyLtZero : PyFloat → Bool
  | .finite q => decide (q < 0)
  | .inf => false
  | .neginf => true
  | .nan => false

/-- Guard at source lines 276-279:
`not isinstance(rho, (int, float)) or rho < 0` — `true` means the
`ValueError` is raised before any computation. -/
def rhoCheckRaises : PyVal → Bool
  | .nonNumeric => true
  | .num f => pyLtZero f

/-- Property the specification asserts of an accepted `rho`: a finite
non-negative number. -/
def IsFiniteNonneg (v : PyVal) : Prop :=
  ∃ q : ℚ, v = .num (.finite q) ∧ 0 ≤ q

/-- Shape-carrying model of a 3-d `numpy` array, used to state the
warm-start handling of lines 285-293, where shapes are dynamic. -/
structure PyArray3 where
  d1 : ℕ
  d2 : ℕ
  d3 : ℕ
  data : ℕ → ℕ → ℕ → ℚ

/-- Default initialization `omega[..., k] = diag(1. / diag(emp_covs[..., k]))`
(lines 285-290) at the `PyArray3` level. -/
def pyDefaultInit (emp : PyArray3) : PyArray3 :=
  ⟨emp.d1, emp.d2, emp.d3,
   fun i j k => if i = j ∧ i < emp.d1 then 1 / emp.data i i k else 0⟩

/-- Initialization section of `group_sparse_covariance` (lines 285-293):
`precisions_init is None` selects the diagonal default, otherwise the
supplied stack is copied verbatim.  The `Except` wrapper records whether a
`ValueError` is raised here; the source contains no shape check, so no
`.error` branch exists. -/
def init_omega (emp : PyArray3) (precisions_init : Option PyArray3) :
    Except Unit PyArray3 :=
  match precisions_init with
  | none => .ok (pyDefaultInit emp)
  | some p => .ok ⟨p.d1, p.d2, p.d3, p.data⟩

/-- Python `symmetrize(M)` (lines 28-31): `M[...] = M + M.T; M[...] /= 2.`. -/
def symmetrize {n : ℕ} (A : Matrix (Fin n) (Fin n) ℚ) : Matrix (Fin n) (Fin n) ℚ :=
  ((1 : ℚ) / 2) • (A + Aᵀ)

/-- NumPy extraction of `full` with row and column `p` removed;
`Fin.succAbove p` is the monotone embedding of `Fin n` into `Fin (n+1)`
skipping `p`, exactly the index map of the slice used in
`assert_submatrix` and at line 321. -/
def removeRC {n : ℕ} (A : Matrix (Fin (n+1)) (Fin (n+1)) ℚ) (p : Fin (n+1)) :
    Matrix (Fin n) (Fin n) ℚ :=
  fun i j => A (p.succAbove i) (p.succAbove j)

/-- Positive definiteness of a rational matrix; together with `Aᵀ = A`
this is the `is_spd` property the Python code asserts in debug mode. -/
def PosDefQ {n : ℕ} (A : Matrix (Fin n) (Fin n) ℚ) : Prop :=
  ∀ x : Fin n → ℚ, x ≠ 0 → 0 < x ⬝ᵥ A.mulVec x

/-- Determinant by Laplace expansion along the first row; an executable
rendering of the determinant used to model `numpy.linalg.inv`. -/
def detQ : {n : ℕ} → Matrix (Fin n) (Fin n) ℚ → ℚ
  | 0, _ => 1
  | n + 1, A =>
    ∑ j : Fin (n + 1), (-1) ^ (j : ℕ) * A 0 j * detQ fun i k => A i.succ (j.succAbove k)

/-- Model of `numpy.linalg.inv` over `ℚ`: the cofactor form
`inv A i j = (-1)^(i+j) · det (minor j i) / det A`, the two-sided inverse
whenever the determinant is nonzero. -/
def qinv {n : ℕ} (A : Matrix (Fin n) (Fin n) ℚ) : Matrix (Fin n) (Fin n) ℚ :=
  match n with
  | 0 => A
  | _ + 1 =>
    fun i j =>
      (-1) ^ ((i : ℕ) + (j : ℕ)) *
          detQ (fun a b => A (j.succAbove a) (i.succAbove b)) / detQ A

/-- Python `update_vectors(full, n)` (lines 135-154), giving the pair
`(h, v)` with `h[:n+1] = full[n, :n+1]`, `h[n+1:] = full[n, n+2:]` and
symmetrically for the column `v`. -/
def update_vectors {m : ℕ} (full : Matrix (Fin (m+1)) (Fin (m+1)) ℚ) (n : Fin m) :
    (Fin m → ℚ) × (Fin m → ℚ) :=
  (fun j => if (j : ℕ) ≤ (n : ℕ) then full n.castSucc j.castSucc else full n.castSucc j.succ,
   fun i => if (i : ℕ) ≤ (n : ℕ) then full i.castSucc n.castSucc else full i.succ n.castSucc)

/-- Row delta `V = h - sub[n, :]` of `update_submatrix` (line 175). -/
def smRowV {m : ℕ} (full : Matrix (Fin (m+1)) (Fin (m+1)) ℚ)
    (sub : Matrix (Fin m) (Fin m) ℚ) (n : Fin m) : Fin m → ℚ :=
  fun j => (update_vectors full n).1 j - sub n j

/-- Sherman-Morrison denominator `1 + np.dot(V, coln)` of the row
correction (line 176), with `coln = sub_inv[:, n]`. -/
def smDenom1 {m : ℕ} (full : Matrix (Fin (m+1)) (Fin (m+1)) ℚ)
    (sub sub_inv : Matrix (Fin m) (Fin m) ℚ) (n : Fin m) : ℚ :=
  1 + ∑ i, smRowV full sub n i * sub_inv i n

/-- State of `sub` after `sub[n, :] = h` (line 178). -/
def subAfterRow {m : ℕ} (full : Matrix (Fin (m+1)) (Fin (m+1)) ℚ)
    (sub : Matrix (Fin m) (Fin m) ℚ) (n : Fin m) : Matrix (Fin m) (Fin m) ℚ :=
  fun i j => if i = n then (update_vectors full n).1 j else sub i j

/-- State of `sub_inv` after the row correction
`sub_inv -= np.outer(coln, np.dot(V, sub_inv))` with
`coln = sub_inv[:, n] / (1 + np.dot(V, coln))` (lines 174-177). -/
def subInvAfterRow {m : ℕ} (full : Matrix (Fin (m+1)) (Fin (m+1)) ℚ)
    (sub sub_inv : Matrix (Fin m) (Fin m) ℚ) (n : Fin m) : Matrix (Fin m) (Fin m) ℚ :=
  fun i j =>
    sub_inv i j -
      sub_inv i n / smDenom1 full sub sub_inv n * ∑ l, smRowV full sub n l * sub_inv l j

/-- Column delta `U = v - sub[:, n]` (line 182), read after the row of
`sub` has been rewritten. -/
def smColU {m : ℕ} (full : Matrix (Fin (m+1)) (Fin (m+1)) ℚ)
    (sub : Matrix (Fin m) (Fin m) ℚ) (n : Fin m) : Fin m → ℚ :=
  fun i => (update_vectors full n).2 i - subAfterRow full sub n i n

/-- Sherman-Morrison denominator `1 + np.dot(rown, U)` of the column
correction (line 183), with `rown = sub_inv[n, :]` read after the row
correction. -/
def smDenom2 {m : ℕ} (full : Matrix (Fin (m+1)) (Fin (m+1)) ℚ)
    (sub sub_inv : Matrix (Fin m) (Fin m) ℚ) (n : Fin m) : ℚ :=
  1 + ∑ j, subInvAfterRow full sub sub_inv n n j * smColU full sub n j

/-- State of `sub` after `sub[:, n] = v` (line 185). -/
def subAfterCol {m : ℕ} (full : Matrix (Fin (m+1)) (Fin (m+1)) ℚ)
    (sub : Matrix (Fin m) (Fin m) ℚ) (n : Fin m) : Matrix (Fin m) (Fin m) ℚ :=
  fun i j => if j = n then (update_vectors full n).2 i else subAfterRow full sub n i j

/-- State of `sub_inv` after the column correction
`sub_inv -= np.outer(np.dot(sub_inv, U), rown)` with
`rown = sub_inv[n, :] / (1 + np.dot(rown, U))` (lines 181-184). -/
def subInvAfterCol {m : ℕ} (full : Matrix (Fin (m+1)) (Fin (m+1)) ℚ)
    (sub sub_inv : Matrix (Fin m) (Fin m) ℚ) (n : Fin m) : Matrix (Fin m) (Fin m) ℚ :=
  fun i j =>
    subInvAfterRow full sub sub_inv n i j -
      (∑ l, subInvAfterRow full sub sub_inv n i l * smColU full sub n l) *
        (subInvAfterRow full sub sub_inv n n j / smDenom2 full sub sub_inv n)

/-- Python `update_submatrix(full, sub, sub_inv, p)` (lines 157-185) with
`n = p - 1` passed directly, returning the new `(sub, sub_inv)` pair after
the two sequential Sherman-Morrison corrections. -/
def update_submatrix {m : ℕ} (full : Matrix (Fin (m+1)) (Fin (m+1)) ℚ)
    (sub sub_inv : Matrix (Fin m) (Fin m) ℚ) (n : Fin m) :
    Matrix (Fin m) (Fin m) ℚ × Matrix (Fin m) (Fin m) ℚ :=
  (subAfterCol full sub n, subInvAfterCol full sub sub_inv n)

/-- Python `quad_trust_region` (lines 125-127); `two_ccq` is passed but
unused, as in the source. -/
def quad_trust_region {K : ℕ} (alpha : ℚ) (q two_ccq cc : Fin K → ℚ) (rho2 : ℚ) : ℚ :=
  rho2 - ∑ k, cc k / (1 + alpha * q k) ^ 2

/-- Python `quad_trust_region_deriv` (lines 130-132). -/
def quad_trust_region_deriv {K : ℕ} (alpha : ℚ) (q two_ccq cc : Fin K → ℚ)
    (rho2 : ℚ) : ℚ :=
  ∑ k, two_ccq k / (1 + alpha * q k) ^ 3

/-- Model of `scipy.optimize.newton` with an explicit `fprime`: iterate
`p = p0 - f(p0)/fprime(p0)` and return as soon as `|p - p0| < tol`; a
vanishing derivative makes scipy warn and return the current iterate;
exhausting `maxiter` iterations makes scipy raise `RuntimeError`,
modelled as `none`. -/
def scipyNewton (f fp : ℚ → ℚ) (tol : ℚ) : ℕ → ℚ → Option ℚ
  | 0, _ => none
  | fuel + 1, p0 =>
    let fder := fp p0
    if fder = 0 then some p0
    else
      let p := p0 - f p0 / fder
      if |p - p0| < tol then some p else scipyNewton f fp tol fuel p

/-- Vector `c` of source lines 371-373:
`c[:] = -n_samples * (emp_covs[p, p, :] * (h_12 * y_1).sum(axis=1) + u[:, m])`;
the sum over `Finset.univ.erase m` is the inner product
`(h_12 * y_1).sum(axis=1)` of the two compacted vectors with index `m`
removed. -/
def coordC {K M : ℕ} (ns vPP : Fin K → ℚ) (Winv : Fin K → Matrix (Fin M) (Fin M) ℚ)
    (u y : Fin K → Fin M → ℚ) (m : Fin M) : Fin K → ℚ :=
  fun k => -(ns k) * (vPP k * (∑ i ∈ Finset.univ.erase m, Winv k i m * y k i) + u k m)

/-- Vector `q = n_samples * emp_covs[p, p, :] * Winv[m, m, :]` of source
line 382. -/
def coordQ {K M : ℕ} (ns vPP : Fin K → ℚ) (Winv : Fin K → Matrix (Fin M) (Fin M) ℚ)
    (m : Fin M) : Fin K → ℚ :=
  fun k => ns k * vPP k * Winv k m m

/-- Precomputed `cc = c * c` (line 387). -/
def coordCC {K M : ℕ} (ns vPP : Fin K → ℚ) (Winv : Fin K → Matrix (Fin M) (Fin M) ℚ)
    (u y : Fin K → Fin M → ℚ) (m : Fin M) : Fin K → ℚ :=
  fun k => coordC ns vPP Winv u y m k * coordC ns vPP Winv u y m k

/-- Precomputed `two_ccq = 2 * cc * q` (line 388). -/
def coordTwoCCQ {K M : ℕ} (ns vPP : Fin K → ℚ) (Winv : Fin K → Matrix (Fin M) (Fin M) ℚ)
    (u y : Fin K → Fin M → ℚ) (m : Fin M) : Fin K → ℚ :=
  fun k => 2 * coordCC ns vPP Winv u y m k * coordQ ns vPP Winv m k

/-- Root-find of source lines 392-396: `scipy.optimize.newton` on
`quad_trust_region` with derivative `quad_trust_region_deriv`, started at
`alpha = 0`, at most `50` iterations, step tolerance `1.5e-6`. -/
def coordNewton {K M : ℕ} (ns vPP : Fin K → ℚ) (Winv : Fin K → Matrix (Fin M) (Fin M) ℚ)
    (u y : Fin K → Fin M → ℚ) (rho : ℚ) (m : Fin M) : Option ℚ :=
  scipyNewton
    (fun a => quad_trust_region a (coordQ ns vPP Winv m) (coordTwoCCQ ns vPP Winv u y m)
      (coordCC ns vPP Winv u y m) (rho ^ 2))
    (fun a => quad_trust_region_deriv a (coordQ ns vPP Winv m) (coordTwoCCQ ns vPP Winv u y m)
      (coordCC ns vPP Winv u y m) (rho ^ 2))
    (3 / 2000000) 50 0

/-- One coordinate-descent update (source lines 357-408) for coordinate
`m`, acting on the per-task row extract `y`; `ns` is `n_samples`, `vPP k`
is `emp_covs[p, p, k]`, `u` the covariance row extract and `Winv` the
submatrix-inverse stack.  The source compares `c2 = sqrt(np.dot(c, c))`
with `rho`, which over the reals is `0 ≤ rho ∧ c·c ≤ rho²`.  Returns the
updated `y` and the ill-conditioning warning flag of lines 401-404;
`none` propagates the `RuntimeError` escape of `scipy.optimize.newton`. -/
def coordStep {K M : ℕ} (ns vPP : Fin K → ℚ) (Winv : Fin K → Matrix (Fin M) (Fin M) ℚ)
    (u y : Fin K → Fin M → ℚ) (rho : ℚ) (m : Fin M) :
    Option ((Fin K → Fin M → ℚ) × Bool) :=
  if 0 ≤ rho ∧ (∑ k, coordC ns vPP Winv u y m k * coordC ns vPP Winv u y m k) ≤ rho ^ 2 then
    some (fun k i => if i = m then 0 else y k i, false)
  else
    (coordNewton ns vPP Winv u y rho m).map fun alpha =>
      let remainder := quad_trust_region alpha (coordQ ns vPP Winv m)
        (coordTwoCCQ ns vPP Winv u y m) (coordCC ns vPP Winv u y m) (rho ^ 2)
      (fun k i => if i = m then alpha * coordC ns vPP Winv u y m k
          / (1 + alpha * coordQ ns vPP Winv m k) else y k i,
       decide (1 / 10 < |remainder|))

/-- Write-back of the solved vector into row `p` and column `p` of a
precision matrix (source lines 410-414); `Fin.insertNth p d y` is the
length-`(m+1)` vector with `d` at position `p` and `y` at the remaining
positions, i.e. exactly the four slice assignments of the source. -/
def writeBack {m : ℕ} (A : Matrix (Fin (m+1)) (Fin (m+1)) ℚ) (p : Fin (m+1))
    (y : Fin m → ℚ) (d : ℚ) : Matrix (Fin (m+1)) (Fin (m+1)) ℚ :=
  let z : Fin (m+1) → ℚ := p.insertNth d y
  fun a b =>
    if b = p then z a
    else if a = p then z b
    else A a b

/-- New diagonal entry
`omega[p, p, k] = 1. / emp_covs[p, p, k] + np.dot(np.dot(y, Winv), y)`
(source lines 416-418). -/
def newDiag {m : ℕ} (v : ℚ) (Winv : Matrix (Fin m) (Fin m) ℚ) (y : Fin m → ℚ) : ℚ :=
  1 / v + Matrix.vecMul y Winv ⬝ᵥ y

/-- Per-task loop state of one sweep: the precision stack `om` and the
maintained submatrix stack `W` with its inverse stack `Winv`. -/
structure SweepState (K M : ℕ) where
  om : Fin K → Matrix (Fin (M+1)) (Fin (M+1)) ℚ
  W : Fin K → Matrix (Fin M) (Fin M) ℚ
  Winv : Fin K → Matrix (Fin M) (Fin M) ℚ

/-- Submatrix stack for step `p`: full extraction and reset at `p = 0`
(source lines 319-330), incremental advance with `n = p - 1` otherwise
(lines 331-345). -/
def sweepW {K M : ℕ} (s : SweepState K M) (p : Fin (M+1)) :
    Fin K → Matrix (Fin M) (Fin M) ℚ :=
  if h : p = 0 then fun k => removeRC (s.om k) 0
  else fun k => (update_submatrix (s.om k) (s.W k) (s.Winv k) (p.pred h)).1

/-- Submatrix-inverse stack for step `p`: full `np.linalg.inv` at `p = 0`,
Sherman-Morrison advance otherwise. -/
def sweepWinv {K M : ℕ} (s : SweepState K M) (p : Fin (M+1)) :
    Fin K → Matrix (Fin M) (Fin M) ℚ :=
  if h : p = 0 then fun k => qinv (removeRC (s.om k) 0)
  else fun k => (update_submatrix (s.om k) (s.W k) (s.Winv k) (p.pred h)).2

/-- Row extraction `y[:, :p] = omega[:p, p, :].T; y[:, p:] = omega[p+1:, p, :].T`
(source lines 351-352). -/
def sweepY0 {K M : ℕ} (s : SweepState K M) (p : Fin (M+1)) : Fin K → Fin M → ℚ :=
  fun k i => s.om k (p.succAbove i) p

/-- Covariance extraction `u` (source lines 354-355). -/
def sweepU {K M : ℕ} (emp : Fin K → Matrix (Fin (M+1)) (Fin (M+1)) ℚ)
    (p : Fin (M+1)) : Fin K → Fin M → ℚ :=
  fun k i => emp k (p.succAbove i) p

/-- Inner coordinate-descent loop over `m = 0 .. n_var - 2` (source lines
357-408), mutating `y` in place. -/
def sweepYfold {K M : ℕ} (emp : Fin K → Matrix (Fin (M+1)) (Fin (M+1)) ℚ)
    (ns : Fin K → ℚ) (rho : ℚ) (s : SweepState K M) (p : Fin (M+1)) :
    Option (Fin K → Fin M → ℚ) :=
  (List.finRange M).foldlM
    (fun y m =>
      (coordStep ns (fun k => emp k p p) (sweepWinv s p) (sweepU emp p) y rho m).map
        Prod.fst)
    (sweepY0 s p)

/-- Body of the loop over the excluded variable `p` (source lines
317-421): submatrix reset or advance, extraction of `y` and `u`, the
inner coordinate-descent loop, and the write-back with the recomputed
diagonal (lines 410-418). -/
def sweepPStep {K M : ℕ} (emp : Fin K → Matrix (Fin (M+1)) (Fin (M+1)) ℚ)
    (ns : Fin K → ℚ) (rho : ℚ) (s : SweepState K M) (p : Fin (M+1)) :
    Option (SweepState K M) :=
  (sweepYfold emp ns rho s p).map fun y =>
    { om := fun k =>
        writeBack (s.om k) p (y k) (newDiag (emp k p p) (sweepWinv s p k) (y k))
      W := sweepW s p
      Winv := sweepWinv s p }

/-- One full sweep over `p = 0 .. n_var - 1`.  The submatrix stacks are
dead state at sweep entry (the `p = 0` step overwrites them without
reading them), modelled by starting from the zero stacks. -/
def sweep {K M : ℕ} (emp : Fin K → Matrix (Fin (M+1)) (Fin (M+1)) ℚ)
    (ns : Fin K → ℚ) (rho : ℚ)
    (om : Fin K → Matrix (Fin (M+1)) (Fin (M+1)) ℚ) :
    Option (Fin K → Matrix (Fin (M+1)) (Fin (M+1)) ℚ) :=
  ((List.finRange (M+1)).foldlM (sweepPStep emp ns rho) ⟨om, fun _ => 0, fun _ => 0⟩).map
    SweepState.om

/-- Convergence test at a full-sweep boundary (source line 431:
`tol is not None and duality_gap < tol`). -/
def checkStop (tol : Option ℚ) (gap : ℚ) : Bool :=
  match tol with
  | none => false
  | some t => decide (gap < t)

/-- Outer driver of `group_sparse_covariance` (source lines 312 and
423-437): at most `max_iter` sweeps, with the convergence test after each
full sweep.  The sweep body and the duality-gap evaluation are parameters
(the cost evaluator computes log-determinants and is kept abstract).
Returns the final state together with the number of executed sweeps;
`none` propagates a sweep failure. -/
def outerLoop {St : Type} (sweepF : St → Option St) (gapF : St → ℚ) (tol : Option ℚ) :
    ℕ → St → Option (St × ℕ)
  | 0, s => some (s, 0)
  | fuel + 1, s =>
    (sweepF s).bind fun s' =>
      if checkStop tol (gapF s') then some (s', 1)
      else (outerLoop sweepF gapF tol fuel s').map fun r => (r.1, r.2 + 1)

/-- Composition of `sweepF` with itself `n` times in the `Option` monad,
used to name the intermediate sweep-boundary states. -/
def sweepsN {St : Type} (sweepF : St → Option St) : ℕ → St → Option St
  | 0, s => some s
  | n + 1, s => (sweepF s).bind (sweepsN sweepF n)

/-- Per-task input sample matrix: a sample count together with a
`samples × features` matrix. -/
def Task (nv : ℕ) : Type := (n : ℕ) × Matrix (Fin n) (Fin nv) ℚ

/-- Model of `sklearn.covariance.empirical_covariance`: column
mean-centering (skipped when `assume_centered`) followed by `XᵀX / n`. -/
def empCov {nv : ℕ} (assume_centered : Bool) (t : Task nv) : Matrix (Fin nv) (Fin nv) ℚ :=
  let mu : Fin nv → ℚ := fun j => (∑ i, t.2 i j) / (t.1 : ℚ)
  let Xc : Fin t.1 → Fin nv → ℚ :=
    if assume_centered then t.2 else fun i j => t.2 i j - mu j
  fun a b => (∑ i, Xc i a * Xc i b) / (t.1 : ℚ)

/-- Python `empirical_covariances` (lines 553-586): the stack of
symmetrized per-task covariance matrices and the normalized sample
weights `n_samples /= n_samples.sum()`. -/
def empirical_covariances {K nv : ℕ} (assume_centered : Bool)
    (tasks : Fin K → Task nv) :
    (Fin K → Matrix (Fin nv) (Fin nv) ℚ) × (Fin K → ℚ) :=
  (fun k => symmetrize (empCov assume_centered (tasks k)),
   fun k => ((tasks k).1 : ℚ) / ∑ j, ((tasks j).1 : ℚ))

/-- Default initialization of the precision stack (lines 285-290). -/
def defaultInit {K nv : ℕ} (emp : Fin K → Matrix (Fin nv) (Fin nv) ℚ) :
    Fin K → Matrix (Fin nv) (Fin nv) ℚ :=
  fun k => Matrix.diagonal fun i => 1 / emp k i i

/-- Iteration core of `group_sparse_covariance`: the outer driver applied
to the concrete sweep body. -/
def gsc_core {K M : ℕ} (emp : Fin K → Matrix (Fin (M+1)) (Fin (M+1)) ℚ)
    (ns : Fin K → ℚ) (rho : ℚ)
    (gapF : (Fin K → Matrix (Fin (M+1)) (Fin (M+1)) ℚ) → ℚ)
    (tol : Option ℚ) (max_iter : ℕ)
    (om0 : Fin K → Matrix (Fin (M+1)) (Fin (M+1)) ℚ) :
    Option ((Fin K → Matrix (Fin (M+1)) (Fin (M+1)) ℚ) × ℕ) :=
  outerLoop (sweep emp ns rho) gapF tol max_iter om0

/-- Whole solver pipeline along the default-initialization path:
empirical covariance builder, diagonal initialization, then the outer
driver over the concrete sweep body. -/
def gsc_full {K M : ℕ} (tasks : Fin K → Task (M+1)) (rho : ℚ)
    (gapF : (Fin K → Matrix (Fin (M+1)) (Fin (M+1)) ℚ) → ℚ)
    (tol : Option ℚ) (max_iter : ℕ) :
    Option ((Fin K → Matrix (Fin (M+1)) (Fin (M+1)) ℚ) × ℕ) :=
  gsc_core (empirical_covariances false tasks).1 (empirical_covariances false tasks).2
    rho gapF tol max_iter (defaultInit (empirical_covariances false tasks).1)

/-- Uniformity of a task-indexed stack: all components equal. -/
def Unif {K : ℕ} {β : Type*} (f : Fin K → β) : Prop := ∀ k k' : Fin K, f k = f k'

/-- Success predicate of the Sherman-Morrison advance at step `p ≠ 0`:
both denominators of `update_submatrix` are nonzero for every task (at
`p = 0` the submatrix is rebuilt by full inversion, so there is nothing
to check).  This is the exact condition under which the advance divides
by a nonzero number. -/
def sweepNoBreakdown {K M : ℕ} (s : SweepState K M) (p : Fin (M+1)) : Bool :=
  if h : p = 0 then true
  else
    decide (∀ k, smDenom1 (s.om k) (s.W k) (s.Winv k) (p.pred h) ≠ 0 ∧
      smDenom2 (s.om k) (s.W k) (s.Winv k) (p.pred h) ≠ 0)

/-- Instrumented copy of `sweepPStep` that fails (returns `none`) exactly
when a Sherman-Morrison denominator of the advance vanishes, and
otherwise performs the very same step.  It is used only to express, as a
run-success hypothesis, that the submatrix maintenance of an execution
never breaks down; `sweepPStepChecked_sub` ties it back to the real
step. -/
def sweepPStepChecked {K M : ℕ} (emp : Fin K → Matrix (Fin (M+1)) (Fin (M+1)) ℚ)
    (ns : Fin K → ℚ) (rho : ℚ) (s : SweepState K M) (p : Fin (M+1)) :
    Option (SweepState K M) :=
  if sweepNoBreakdown s p then sweepPStep emp ns rho s p else none

/-- Instrumented copy of `sweep` built on `sweepPStepChecked`. -/
def sweepChecked {K M : ℕ} (emp : Fin K → Matrix (Fin (M+1)) (Fin (M+1)) ℚ)
    (ns : Fin K → ℚ) (rho : ℚ)
    (om : Fin K → Matrix (Fin (M+1)) (Fin (M+1)) ℚ) :
    Option (Fin K → Matrix (Fin (M+1)) (Fin (M+1)) ℚ) :=
  ((List.finRange (M+1)).foldlM (sweepPStepChecked emp ns rho)
      ⟨om, fun _ => 0, fun _ => 0⟩).map
    SweepState.om

/-- Instrumented copy of `gsc_core` built on `sweepChecked`: it succeeds
exactly on the runs of the solver core in which no Sherman-Morrison
advance ever divides by zero, and then computes the same result. -/
def gsc_core_checked {K M : ℕ} (emp : Fin K → Matrix (Fin (M+1)) (Fin (M+1)) ℚ)
    (ns : Fin K → ℚ) (rho : ℚ)
    (gapF : (Fin K → Matrix (Fin (M+1)) (Fin (M+1)) ℚ) → ℚ)
    (tol : Option ℚ) (max_iter : ℕ)
    (om0 : Fin K → Matrix (Fin (M+1)) (Fin (M+1)) ℚ) :
    Option ((Fin K → Matrix (Fin (M+1)) (Fin (M+1)) ℚ) × ℕ) :=
  outerLoop (sweepChecked emp ns rho) gapF tol max_iter om0

/-- Loop invariant of the sweep over `p`, after `pn` processed steps:
every precision matrix is symmetric positive definite, and — once a step
has run — the maintained submatrix stack is exactly the precision stack
with row and column `pn - 1` removed, with `Winv` a left inverse. -/
def SweepInvariant {K M : ℕ} (s : SweepState K M) (pn : ℕ) : Prop :=
  (∀ k, (s.om k)ᵀ = s.om k ∧ PosDefQ (s.om k)) ∧
  ∀ (h : pn - 1 < M + 1), 0 < pn →
    ∀ k, s.W k = removeRC (s.om k) ⟨pn - 1, h⟩ ∧ s.Winv k * s.W k = 1

theorem mulVec_single_one {N : ℕ} (B : Matrix (Fin N) (Fin N) ℚ) (n : Fin N) :
    B.mulVec (Pi.single n 1) = fun i => B i n := by
  funext i
  simp [Matrix.mulVec, dotProduct, Pi.single_apply, mul_ite, Finset.sum_ite_eq']

theorem vecMul_single_one {N : ℕ} (B : Matrix (Fin N) (Fin N) ℚ) (n : Fin N) :
    Matrix.vecMul (Pi.single n 1) B = fun j => B n j := by
  funext j
  simp [Matrix.vecMul, dotProduct, Pi.single_apply, ite_mul, Finset.sum_ite_eq]

/-- Sherman-Morrison: a rank-one update `A + u wᵀ` of an invertible matrix
with nonzero denominator `1 + w·(B u)` has the corrected matrix as a left
inverse. -/
theorem shermanMorrison_left {N : ℕ} (A B Anew Bnew : Matrix (Fin N) (Fin N) ℚ)
    (u w : Fin N → ℚ) (hBA : B * A = 1)
    (hd : 1 + w ⬝ᵥ B.mulVec u ≠ 0)
    (hBnew : ∀ i j, Bnew i j
      = B i j - B.mulVec u i / (1 + w ⬝ᵥ B.mulVec u) * Matrix.vecMul w B j)
    (hAnew : ∀ i j, Anew i j = A i j + u i * w j) :
    Bnew * Anew = 1 := by
  set d := 1 + w ⬝ᵥ B.mulVec u with hdDef
  ext i j
  rw [Matrix.mul_apply]
  have expand : ∀ l, Bnew i l * Anew l j
      = B i l * A l j + B i l * u l * w j
        - B.mulVec u i / d * (Matrix.vecMul w B l * A l j)
        - B.mulVec u i / d * (Matrix.vecMul w B l * u l) * w j := by
    intro l
    rw [hBnew, hAnew]
    ring
  rw [Finset.sum_congr rfl fun l _ => expand l]
  have h1 : ∑ l, B i l * A l j = (1 : Matrix (Fin N) (Fin N) ℚ) i j := by
    rw [← Matrix.mul_apply, hBA]
  have h2 : ∑ l, B i l * u l * w j = B.mulVec u i * w j := by
    rw [← Finset.sum_mul]
    simp [Matrix.mulVec, dotProduct]
  have h3 : ∑ l, B.mulVec u i / d * (Matrix.vecMul w B l * A l j)
      = B.mulVec u i / d * w j := by
    rw [← Finset.mul_sum]
    have : ∑ l, Matrix.vecMul w B l * A l j = Matrix.vecMul (Matrix.vecMul w B) A j := by
      simp [Matrix.vecMul, dotProduct]
    rw [this, Matrix.vecMul_vecMul, hBA, Matrix.vecMul_one]
  have h4 : ∑ l, B.mulVec u i / d * (Matrix.vecMul w B l * u l) * w j
      = B.mulVec u i / d * (d - 1) * w j := by
    have hsum : ∑ l, Matrix.vecMul w B l * u l = d - 1 := by
      have : ∑ l, Matrix.vecMul w B l * u l = Matrix.vecMul w B ⬝ᵥ u := rfl
      rw [this, ← Matrix.dotProduct_mulVec, hdDef]
      ring
    calc ∑ l, B.mulVec u i / d * (Matrix.vecMul w B l * u l) * w j
        = B.mulVec u i / d * (∑ l, Matrix.vecMul w B l * u l) * w j := by
          rw [← Finset.sum_mul, ← Finset.mul_sum]
      _ = B.mulVec u i / d * (d - 1) * w j := by rw [hsum]
  rw [Finset.sum_sub_distrib, Finset.sum_sub_distrib, Finset.sum_add_distrib, h1, h2, h3, h4]
  field_simp
  ring

theorem succAbove_succ_apply {m : ℕ} (n j : Fin m) :
    n.succ.succAbove j = if (j : ℕ) ≤ (n : ℕ) then j.castSucc else j.succ := by
  rw [Fin.succAbove]
  rcases le_or_lt (j : ℕ) (n : ℕ) with h | h
  · rw [if_pos, if_pos h]
    exact Fin.castSucc_lt_succ_iff.mpr (by exact_mod_cast h)
  · rw [if_neg, if_neg (not_le.mpr h)]
    rw [Fin.castSucc_lt_succ_iff]
    exact not_le.mpr (by exact_mod_cast h)

theorem succAbove_castSucc_apply {m : ℕ} (n j : Fin m) :
    n.castSucc.succAbove j = if (j : ℕ) < (n : ℕ) then j.castSucc else j.succ := by
  rw [Fin.succAbove]
  rcases lt_or_le (j : ℕ) (n : ℕ) with h | h
  · rw [if_pos, if_pos h]
    exact Fin.castSucc_lt_castSucc_iff.mpr (by exact_mod_cast h)
  · rw [if_neg, if_neg (not_lt.mpr h)]
    rw [Fin.castSucc_lt_castSucc_iff]
    exact not_lt.mpr (by exact_mod_cast h)

theorem succAbove_agree_of_ne {m : ℕ} {n i : Fin m} (hin : i ≠ n) :
    n.castSucc.succAbove i = n.succ.succAbove i := by
  rw [succAbove_castSucc_apply, succAbove_succ_apply]
  rcases lt_trichotomy (i : ℕ) (n : ℕ) with h | h | h
  · simp [h, Nat.le_of_lt h]
  · exact absurd (Fin.ext h) hin
  · simp [Nat.not_lt.mpr (Nat.le_of_lt h), Nat.not_le.mpr h]

theorem update_vectors_fst {m : ℕ} (full : Matrix (Fin (m+1)) (Fin (m+1)) ℚ) (n : Fin m) :
    (update_vectors full n).1 = fun j => full n.castSucc (n.succ.succAbove j) := by
  funext j
  rw [succAbove_succ_apply]
  simp only [update_vectors]
  by_cases h : (j : ℕ) ≤ (n : ℕ)
  · rw [if_pos h, if_pos h]
  · rw [if_neg h, if_neg h]

theorem update_vectors_snd {m : ℕ} (full : Matrix (Fin (m+1)) (Fin (m+1)) ℚ) (n : Fin m) :
    (update_vectors full n).2 = fun i => full (n.succ.succAbove i) n.castSucc := by
  funext i
  rw [succAbove_succ_apply]
  simp only [update_vectors]
  by_cases h : (i : ℕ) ≤ (n : ℕ)
  · rw [if_pos h, if_pos h]
  · rw [if_neg h, if_neg h]

/-- Row correction of `update_submatrix`: the updated inverse is a left
inverse of the row-updated submatrix. -/
theorem subInvAfterRow_mul {m : ℕ} (full : Matrix (Fin (m+1)) (Fin (m+1)) ℚ)
    (sub sub_inv : Matrix (Fin m) (Fin m) ℚ) (n : Fin m)
    (hinv : sub_inv * sub = 1) (hd1 : smDenom1 full sub sub_inv n ≠ 0) :
    subInvAfterRow full sub sub_inv n * subAfterRow full sub n = 1 := by
  have hmv : sub_inv.mulVec (Pi.single n 1) = fun i => sub_inv i n :=
    mulVec_single_one sub_inv n
  have hdd : 1 + smRowV full sub n ⬝ᵥ sub_inv.mulVec (Pi.single n 1)
      = smDenom1 full sub sub_inv n := by
    rw [hmv]
    simp [smDenom1, dotProduct]
  refine shermanMorrison_left sub sub_inv (subAfterRow full sub n)
    (subInvAfterRow full sub sub_inv n) (Pi.single n 1) (smRowV full sub n) hinv
    (by rw [hdd]; exact hd1) (fun i j => ?_) (fun i j => ?_)
  · rw [hdd, hmv]
    simp [subInvAfterRow, Matrix.vecMul, dotProduct]
  · simp only [subAfterRow, Pi.single_apply]
    by_cases h : i = n
    · subst h
      simp [smRowV]
    · simp [h]

/-- Column correction of `update_submatrix`: the final inverse is a left
inverse of the fully updated submatrix. -/
theorem subInvAfterCol_mul {m : ℕ} (full : Matrix (Fin (m+1)) (Fin (m+1)) ℚ)
    (sub sub_inv : Matrix (Fin m) (Fin m) ℚ) (n : Fin m)
    (hinv : sub_inv * sub = 1) (hd1 : smDenom1 full sub sub_inv n ≠ 0)
    (hd2 : smDenom2 full sub sub_inv n ≠ 0) :
    subInvAfterCol full sub sub_inv n * subAfterCol full sub n = 1 := by
  have hB1 := subInvAfterRow_mul full sub sub_inv n hinv hd1
  have hmv : ∀ i, (subInvAfterRow full sub sub_inv n).mulVec (smColU full sub n) i
      = ∑ l, subInvAfterRow full sub sub_inv n i l * smColU full sub n l := by
    intro i
    simp [Matrix.mulVec, dotProduct]
  have hdd : 1 + Pi.single n 1 ⬝ᵥ
        (subInvAfterRow full sub sub_inv n).mulVec (smColU full sub n)
      = smDenom2 full sub sub_inv n := by
    have : Pi.single n (1 : ℚ) ⬝ᵥ
        (subInvAfterRow full sub sub_inv n).mulVec (smColU full sub n)
        = (subInvAfterRow full sub sub_inv n).mulVec (smColU full sub n) n := by
      simp [dotProduct, Pi.single_apply, ite_mul, Finset.sum_ite_eq]
    rw [this, hmv]
    simp [smDenom2]
  refine shermanMorrison_left (subAfterRow full sub n) (subInvAfterRow full sub sub_inv n)
    (subAfterCol full sub n) (subInvAfterCol full sub sub_inv n)
    (smColU full sub n) (Pi.single n 1) hB1
    (by rw [hdd]; exact hd2) (fun i j => ?_) (fun i j => ?_)
  · rw [hdd, vecMul_single_one, hmv]
    simp only [subInvAfterCol]
    ring
  · simp only [subAfterCol, Pi.single_apply]
    by_cases h : j = n
    · subst h
      simp [smColU]
    · simp [h]

/-- After `update_submatrix`, `sub` equals `full` with row and column
`n+1` removed (the pure index bookkeeping, no invertibility needed). -/
theorem subAfterCol_removeRC {m : ℕ} (full : Matrix (Fin (m+1)) (Fin (m+1)) ℚ)
    (sub : Matrix (Fin m) (Fin m) ℚ) (n : Fin m)
    (hsub : sub = removeRC full n.castSucc) :
    subAfterCol full sub n = removeRC full n.succ := by
  have hnn : n.succ.succAbove n = n.castSucc := by
    rw [succAbove_succ_apply]
    simp
  funext i j
  simp only [subAfterCol, subAfterRow, removeRC]
  by_cases hj : j = n
  · subst hj
    rw [if_pos rfl, update_vectors_snd, hnn]
  · rw [if_neg hj]
    by_cases hi : i = n
    · subst hi
      rw [if_pos rfl, update_vectors_fst, hnn]
    · rw [if_neg hi, hsub]
      simp only [removeRC]
      rw [succAbove_agree_of_ne hi, succAbove_agree_of_ne hj]

/-- C2: the claimed incremental-update property fails for a symmetric
`full` whose first Sherman-Morrison denominator vanishes: with
`full = [[1,0,2],[0,1,1],[2,1,2]]`, `p = 1`, `sub = full` minus row and
column `0` and `sub_inv` its exact inverse, the updated `sub_inv` is not
an inverse of `full` minus row and column `1` (the correction divides by
zero: in exact arithmetic the update breaks down, in NumPy it produces
non-finite entries). -/
theorem update_submatrix_cex :
    (!![(1 : ℚ), 0, 2; 0, 1, 1; 2, 1, 2])ᵀ = !![(1 : ℚ), 0, 2; 0, 1, 1; 2, 1, 2] ∧
    (!![(2 : ℚ), -1; -1, 1]) * removeRC !![(1 : ℚ), 0, 2; 0, 1, 1; 2, 1, 2] 0 = 1 ∧
    ¬ ((update_submatrix !![(1 : ℚ), 0, 2; 0, 1, 1; 2, 1, 2]
          (removeRC !![(1 : ℚ), 0, 2; 0, 1, 1; 2, 1, 2] 0)
          !![(2 : ℚ), -1; -1, 1] 0).2 *
        removeRC !![(1 : ℚ), 0, 2; 0, 1, 1; 2, 1, 2] 1 = 1) := by
  refine ⟨by decide, by decide, ?_⟩
  intro h
  have := congrFun (congrFun h 0) 0
  revert this
  decide

/-- C2 (amended): whenever the two Sherman-Morrison denominators
encountered by `update_submatrix` are nonzero, the update of a symmetric
matrix's submatrix state is exact: starting from `sub = full` minus row
and column `n` with `sub_inv` a (left, hence two-sided) inverse of `sub`,
the updated pair is `full` minus row and column `n+1` together with its
two-sided inverse. -/
theorem update_submatrix_correct {m : ℕ} (full : Matrix (Fin (m+1)) (Fin (m+1)) ℚ)
    (sub sub_inv : Matrix (Fin m) (Fin m) ℚ) (n : Fin m)
    (hfull : fullᵀ = full)
    (hsub : sub = removeRC full n.castSucc)
    (hinv : sub_inv * sub = 1)
    (hd1 : smDenom1 full sub sub_inv n ≠ 0)
    (hd2 : smDenom2 full sub sub_inv n ≠ 0) :
    (update_submatrix full sub sub_inv n).1 = removeRC full n.succ ∧
    (update_submatrix full sub sub_inv n).2 * removeRC full n.succ = 1 ∧
    removeRC full n.succ * (update_submatrix full sub sub_inv n).2 = 1 := by
  have hsub' : subAfterCol full sub n = removeRC full n.succ :=
    subAfterCol_removeRC full sub n hsub
  have hmul : subInvAfterCol full sub sub_inv n * subAfterCol full sub n = 1 :=
    subInvAfterCol_mul full sub sub_inv n hinv hd1 hd2
  refine ⟨hsub', ?_, ?_⟩
  · rw [update_submatrix, ← hsub']
    exact hmul
  · rw [update_submatrix, ← hsub']
    exact Matrix.mul_eq_one_comm.mp hmul

/-- Witness for the amended C2 statement: a concrete symmetric 3×3 matrix
with nonzero Sherman-Morrison denominators. -/
theorem update_submatrix_correct_witness :
    (update_submatrix !![(2 : ℚ), 0, 1; 0, 2, 0; 1, 0, 2]
        (removeRC !![(2 : ℚ), 0, 1; 0, 2, 0; 1, 0, 2] 0)
        !![(1 : ℚ)/2, 0; 0, 1/2] 0).1 = removeRC !![(2 : ℚ), 0, 1; 0, 2, 0; 1, 0, 2] 1 ∧
    (update_submatrix !![(2 : ℚ), 0, 1; 0, 2, 0; 1, 0, 2]
        (removeRC !![(2 : ℚ), 0, 1; 0, 2, 0; 1, 0, 2] 0)
        !![(1 : ℚ)/2, 0; 0, 1/2] 0).2 * removeRC !![(2 : ℚ), 0, 1; 0, 2, 0; 1, 0, 2] 1 = 1 ∧
    removeRC !![(2 : ℚ), 0, 1; 0, 2, 0; 1, 0, 2] 1 *
      (update_submatrix !![(2 : ℚ), 0, 1; 0, 2, 0; 1, 0, 2]
        (removeRC !![(2 : ℚ), 0, 1; 0, 2, 0; 1, 0, 2] 0)
        !![(1 : ℚ)/2, 0; 0, 1/2] 0).2 = 1 :=
  update_submatrix_correct !![(2 : ℚ), 0, 1; 0, 2, 0; 1, 0, 2]
    (removeRC !![(2 : ℚ), 0, 1; 0, 2, 0; 1, 0, 2] 0)
    !![(1 : ℚ)/2, 0; 0, 1/2] 0 (by decide) rfl (by decide) (by decide) (by decide)

theorem writeBack_apply_same {m : ℕ} (A : Matrix (Fin (m+1)) (Fin (m+1)) ℚ)
    (p : Fin (m+1)) (y : Fin m → ℚ) (d : ℚ) : writeBack A p y d p p = d := by
  simp [writeBack, Fin.insertNth_apply_same]

theorem writeBack_apply_row {m : ℕ} (A : Matrix (Fin (m+1)) (Fin (m+1)) ℚ)
    (p : Fin (m+1)) (y : Fin m → ℚ) (d : ℚ) (j : Fin m) :
    writeBack A p y d p (p.succAbove j) = y j := by
  simp [writeBack, Fin.succAbove_ne, Fin.insertNth_apply_succAbove]

theorem writeBack_apply_col {m : ℕ} (A : Matrix (Fin (m+1)) (Fin (m+1)) ℚ)
    (p : Fin (m+1)) (y : Fin m → ℚ) (d : ℚ) (i : Fin m) :
    writeBack A p y d (p.succAbove i) p = y i := by
  simp [writeBack, Fin.insertNth_apply_succAbove]

theorem writeBack_apply_off {m : ℕ} (A : Matrix (Fin (m+1)) (Fin (m+1)) ℚ)
    (p : Fin (m+1)) (y : Fin m → ℚ) (d : ℚ) (i j : Fin m) :
    writeBack A p y d (p.succAbove i) (p.succAbove j) = A (p.succAbove i) (p.succAbove j) := by
  simp [writeBack, Fin.succAbove_ne]

/-- Quadratic form of an `(m+1) × (m+1)` matrix split at index `p`. -/
theorem quad_split {m : ℕ} (M : Matrix (Fin (m+1)) (Fin (m+1)) ℚ) (x : Fin (m+1) → ℚ)
    (p : Fin (m+1)) :
    x ⬝ᵥ M.mulVec x
      = x p * (M p p * x p + ∑ j, M p (p.succAbove j) * x (p.succAbove j))
        + ∑ i, x (p.succAbove i) *
            (M (p.succAbove i) p * x p
              + ∑ j, M (p.succAbove i) (p.succAbove j) * x (p.succAbove j)) := by
  have hmv : ∀ a, M.mulVec x a = M a p * x p + ∑ j, M a (p.succAbove j) * x (p.succAbove j) := by
    intro a
    have h0 : M.mulVec x a = ∑ b, M a b * x b := by
      simp [Matrix.mulVec, dotProduct]
    rw [h0, Fin.sum_univ_succAbove (fun b => M a b * x b) p]
  calc x ⬝ᵥ M.mulVec x = ∑ a, x a * M.mulVec x a := rfl
    _ = x p * M.mulVec x p + ∑ i, x (p.succAbove i) * M.mulVec x (p.succAbove i) :=
        Fin.sum_univ_succAbove (fun a => x a * M.mulVec x a) p
    _ = _ := by
        rw [hmv p]
        exact congrArg _ (Finset.sum_congr rfl fun i _ => by rw [hmv])

/-- Principal submatrices of positive definite matrices are positive
definite. -/
theorem removeRC_posDefQ {m : ℕ} (A : Matrix (Fin (m+1)) (Fin (m+1)) ℚ) (p : Fin (m+1))
    (hpd : PosDefQ A) : PosDefQ (removeRC A p) := by
  intro xr hxr
  set X : Fin (m+1) → ℚ := p.insertNth 0 xr with hX
  have hXne : X ≠ 0 := by
    intro h0
    apply hxr
    funext i
    have : X (p.succAbove i) = 0 := by rw [h0]; rfl
    rwa [hX, Fin.insertNth_apply_succAbove] at this
  have hXp : X p = 0 := by
    rw [hX]
    exact Fin.insertNth_apply_same (α := fun _ => ℚ) p 0 xr
  have hXs : ∀ i, X (p.succAbove i) = xr i := by
    intro i
    rw [hX]
    exact Fin.insertNth_apply_succAbove (α := fun _ => ℚ) p 0 xr i
  have hsplit := quad_split A X p
  have hform : X ⬝ᵥ A.mulVec X = xr ⬝ᵥ (removeRC A p).mulVec xr := by
    rw [hsplit, hXp]
    have : ∀ i, X (p.succAbove i) *
        (A (p.succAbove i) p * 0 + ∑ j, A (p.succAbove i) (p.succAbove j) * X (p.succAbove j))
        = xr i * ∑ j, removeRC A p i j * xr j := by
      intro i
      rw [hXs]
      simp only [removeRC, mul_zero, zero_add]
      congr 1
      exact Finset.sum_congr rfl fun j _ => by rw [hXs]
    rw [Finset.sum_congr rfl fun i _ => this i]
    simp [Matrix.mulVec, dotProduct]
  have := hpd X hXne
  rw [hform] at this
  exact this

/-- Identity stacks are positive definite. -/
theorem one_posDefQ {n : ℕ} : PosDefQ (1 : Matrix (Fin n) (Fin n) ℚ) := by
  intro x hx
  rw [Matrix.one_mulVec]
  obtain ⟨i, hi⟩ := Function.ne_iff.mp hx
  refine Finset.sum_pos' (fun j _ => mul_self_nonneg _) ⟨i, Finset.mem_univ i, ?_⟩
  exact mul_self_pos.mpr (by simpa using hi)

/-- Quadratic form of the written-back matrix: diagonal block unchanged,
cross terms given by the inserted vector `y`, corner given by `D`. -/
theorem writeBack_quadForm {m : ℕ} (A : Matrix (Fin (m+1)) (Fin (m+1)) ℚ)
    (p : Fin (m+1)) (y : Fin m → ℚ) (D : ℚ) (x : Fin (m+1) → ℚ) :
    x ⬝ᵥ (writeBack A p y D).mulVec x
      = D * x p * x p + 2 * x p * ∑ i, y i * x (p.succAbove i)
        + ∑ i, x (p.succAbove i) *
            ∑ j, A (p.succAbove i) (p.succAbove j) * x (p.succAbove j) := by
  rw [quad_split (writeBack A p y D) x p]
  simp only [writeBack_apply_same, writeBack_apply_row, writeBack_apply_col,
    writeBack_apply_off]
  have key : ∀ i, x (p.succAbove i) *
        (y i * x p + ∑ j, A (p.succAbove i) (p.succAbove j) * x (p.succAbove j))
      = y i * x (p.succAbove i) * x p
        + x (p.succAbove i) *
            ∑ j, A (p.succAbove i) (p.succAbove j) * x (p.succAbove j) := fun i => by ring
  rw [Finset.sum_congr rfl fun i _ => key i, Finset.sum_add_distrib]
  rw [show ∑ i, y i * x (p.succAbove i) * x p = (∑ i, y i * x (p.succAbove i)) * x p from
    (Finset.sum_mul _ _ _).symm]
  ring

/-- Square completion behind the diagonal update: the quadratic form of a
symmetric `S` at `xr + s • S⁻¹ y` absorbs the cross terms. -/
theorem completion_sq {m : ℕ} (S Winv : Matrix (Fin m) (Fin m) ℚ) (hS : Sᵀ = S)
    (hSW : S * Winv = 1) (y xr : Fin m → ℚ) (s : ℚ) :
    (Matrix.vecMul y Winv ⬝ᵥ y) * s * s + 2 * s * (y ⬝ᵥ xr) + xr ⬝ᵥ S.mulVec xr
      = (xr + s • Winv.mulVec y) ⬝ᵥ S.mulVec (xr + s • Winv.mulVec y) := by
  have hSw : S.mulVec (Winv.mulVec y) = y := by
    rw [Matrix.mulVec_mulVec, hSW, Matrix.one_mulVec]
  have hwy : Matrix.vecMul y Winv ⬝ᵥ y = Winv.mulVec y ⬝ᵥ y := by
    rw [← Matrix.dotProduct_mulVec, dotProduct_comm]
  have hwx : Winv.mulVec y ⬝ᵥ S.mulVec xr = y ⬝ᵥ xr := by
    rw [Matrix.dotProduct_mulVec, ← Matrix.mulVec_transpose, hS, hSw]
  rw [Matrix.mulVec_add, Matrix.mulVec_smul, hSw]
  simp only [dotProduct_add, add_dotProduct, dotProduct_smul, smul_dotProduct, smul_eq_mul]
  rw [hwx, hwy, dotProduct_comm xr y]
  ring

/-- Vector over `Fin (m+1)` vanishing at `p` and away from `p` is zero. -/
theorem eq_zero_of_parts {m : ℕ} (x : Fin (m+1) → ℚ) (p : Fin (m+1)) (hp : x p = 0)
    (hr : ∀ i, x (p.succAbove i) = 0) : x = 0 := by
  funext a
  rcases eq_or_ne a p with rfl | hap
  · exact hp
  · obtain ⟨i, rfl⟩ := Fin.exists_succAbove_eq hap
    exact hr i

/-- One write-back step of the driver — off-diagonal row/column `p`
replaced by the solved vector `y` (in both positions, preserving
symmetry) and the diagonal recomputed as
`1/emp_cov[p,p] + y·Winv·y` — maps a symmetric positive definite
precision matrix to a symmetric positive definite matrix, provided the
excluded diagonal entry `emp_cov[p,p]` is positive and `Winv` is an
inverse of the excluded submatrix (the state invariant maintained by the
surrounding loop).  This is the invariant-preservation step behind the
claim that the precision matrices stay symmetric positive definite. -/
theorem omega_update_keeps_spd {m : ℕ} (A : Matrix (Fin (m+1)) (Fin (m+1)) ℚ)
    (p : Fin (m+1)) (y : Fin m → ℚ) (v : ℚ) (Winv : Matrix (Fin m) (Fin m) ℚ)
    (hA : Aᵀ = A) (hpd : PosDefQ A) (hv : 0 < v)
    (hWinv : Winv * removeRC A p = 1) :
    (writeBack A p y (newDiag v Winv y))ᵀ = writeBack A p y (newDiag v Winv y) ∧
    PosDefQ (writeBack A p y (newDiag v Winv y)) := by
  have hAsymm : ∀ a b, A a b = A b a := by
    intro a b
    have := congrFun (congrFun hA b) a
    rwa [Matrix.transpose_apply] at this
  have hS : (removeRC A p)ᵀ = removeRC A p := by
    funext i j
    rw [Matrix.transpose_apply]
    simp only [removeRC]
    exact hAsymm _ _
  have hSW : removeRC A p * Winv = 1 := Matrix.mul_eq_one_comm.mp hWinv
  have hSpd : PosDefQ (removeRC A p) := removeRC_posDefQ A p hpd
  constructor
  · funext a b
    rw [Matrix.transpose_apply]
    simp only [writeBack]
    by_cases hb : b = p <;> by_cases ha : a = p <;> simp [ha, hb, hAsymm a b]
  · intro x hx
    have hform : x ⬝ᵥ (writeBack A p y (newDiag v Winv y)).mulVec x
        = newDiag v Winv y * x p * x p
          + 2 * x p * (y ⬝ᵥ fun i => x (p.succAbove i))
          + (fun i => x (p.succAbove i)) ⬝ᵥ
              (removeRC A p).mulVec fun i => x (p.succAbove i) :=
      writeBack_quadForm A p y (newDiag v Winv y) x
    have hcomp := completion_sq (removeRC A p) Winv hS hSW y
      (fun i => x (p.succAbove i)) (x p)
    have hdiag : newDiag v Winv y = 1 / v + Matrix.vecMul y Winv ⬝ᵥ y := rfl
    have final : x ⬝ᵥ (writeBack A p y (newDiag v Winv y)).mulVec x
        = 1 / v * x p * x p
          + ((fun i => x (p.succAbove i)) + x p • Winv.mulVec y) ⬝ᵥ
              (removeRC A p).mulVec
                ((fun i => x (p.succAbove i)) + x p • Winv.mulVec y) := by
      rw [hform, hdiag, ← hcomp]
      ring
    rw [final]
    have hnn : ∀ z : Fin m → ℚ, 0 ≤ z ⬝ᵥ (removeRC A p).mulVec z := by
      intro z
      rcases eq_or_ne z 0 with rfl | hz
      · simp
      · exact le_of_lt (hSpd z hz)
    rcases eq_or_ne (x p) 0 with hs0 | hs0
    · have hxrne : (fun i => x (p.succAbove i)) ≠ 0 := by
        intro h0
        exact hx (eq_zero_of_parts x p hs0 fun i => congrFun h0 i)
      have hz : ((fun i => x (p.succAbove i)) + x p • Winv.mulVec y)
          = fun i => x (p.succAbove i) := by
        rw [hs0, zero_smul, add_zero]
      rw [hz, hs0]
      have := hSpd _ hxrne
      nlinarith [this]
    · have h1 : 0 < 1 / v * x p * x p := by
        have hv' : 0 < 1 / v := by positivity
        have : 0 < x p * x p := mul_self_pos.mpr hs0
        nlinarith
      have h2 := hnn ((fun i => x (p.succAbove i)) + x p • Winv.mulVec y)
      linarith

/-- C5: the guard accepts `rho = float('nan')`, although `nan` is not a
finite non-negative number — the claim that every non-finite `rho` is
rejected before computation fails at this input. -/
theorem rho_validation_nan_cex :
    ¬ IsFiniteNonneg (PyVal.num PyFloat.nan) ∧
    rhoCheckRaises (PyVal.num PyFloat.nan) = false := by
  refine ⟨?_, rfl⟩
  rintro ⟨q, hq, -⟩
  cases hq

/-- C5 (amended): the guard of lines 276-279 raises exactly for
non-numeric or negative `rho`; finite non-negative values pass, and so do
`nan` and `+inf`, which are not rejected. -/
theorem rho_validation_characterization :
    (∀ q : ℚ, 0 ≤ q → rhoCheckRaises (.num (.finite q)) = false) ∧
    (∀ q : ℚ, q < 0 → rhoCheckRaises (.num (.finite q)) = true) ∧
    rhoCheckRaises (.num .inf) = false ∧
    rhoCheckRaises (.num .neginf) = true ∧
    rhoCheckRaises (.num .nan) = false ∧
    rhoCheckRaises .nonNumeric = true := by
  refine ⟨fun q hq => ?_, fun q hq => ?_, rfl, rfl, rfl, rfl⟩
  · simpa [rhoCheckRaises, pyLtZero] using not_lt.mpr hq
  · simpa [rhoCheckRaises, pyLtZero] using hq

/-- Witness for the amended C5 statement at `rho = 1` and `rho = -1`. -/
theorem rho_validation_characterization_witness :
    rhoCheckRaises (.num (.finite 1)) = false ∧
    rhoCheckRaises (.num (.finite (-1))) = true :=
  ⟨rho_validation_characterization.1 1 (by decide),
   rho_validation_characterization.2.1 (-1) (by decide)⟩

/-- C6: a warm-start stack whose shape `(3, 3, 1)` differs from the
covariance-stack shape `(2, 2, 1)` is accepted without any validation
error — lines 285-293 contain no shape check, refuting the claim that a
mismatched warm start is rejected before computation. -/
theorem warm_start_no_shape_check_cex :
    ((3, 3, 1) : ℕ × ℕ × ℕ) ≠ (2, 2, 1) ∧
    ∃ A, init_omega ⟨2, 2, 1, fun _ _ _ => 1⟩ (some ⟨3, 3, 1, fun _ _ _ => 0⟩)
        = Except.ok A ∧ A.d1 = 3 :=
  ⟨by decide, ⟨_, rfl, rfl⟩⟩

/-- C6 (amended): the initialization of lines 285-293 never raises: any
supplied warm-start stack is copied verbatim and used in place of the
default diagonal initialization, whatever its shape (mismatches surface
later, if at all, during computation); absent a warm start, the diagonal
default `diag(1/diag(emp_covs[..., k]))` is used. -/
theorem warm_start_handling (emp : PyArray3) :
    (∀ P, init_omega emp (some P) = Except.ok ⟨P.d1, P.d2, P.d3, P.data⟩) ∧
    init_omega emp none = Except.ok (pyDefaultInit emp) :=
  ⟨fun _ => rfl, rfl⟩

/-- C8: for a task sequence with a positive total sample count, every
matrix of the covariance stack is the explicit symmetrization
`(M + Mᵀ)/2` of the raw empirical covariance (hence equals its own
transpose), and the weight vector is proportional to the per-task sample
counts and sums to `1`. -/
theorem empirical_covariances_postcondition {K nv : ℕ} (ac : Bool)
    (tasks : Fin K → Task nv) (htot : 0 < ∑ j, ((tasks j).1 : ℚ)) :
    (∀ k, ((empirical_covariances ac tasks).1 k)ᵀ = (empirical_covariances ac tasks).1 k) ∧
    (∀ k, (empirical_covariances ac tasks).1 k = symmetrize (empCov ac (tasks k))) ∧
    (∀ k, (empirical_covariances ac tasks).2 k
        = ((tasks k).1 : ℚ) / ∑ j, ((tasks j).1 : ℚ)) ∧
    (∑ k, (empirical_covariances ac tasks).2 k) = 1 := by
  refine ⟨fun k => ?_, fun k => rfl, fun k => rfl, ?_⟩
  · show (symmetrize (empCov ac (tasks k)))ᵀ = symmetrize (empCov ac (tasks k))
    simp only [symmetrize, Matrix.transpose_smul, Matrix.transpose_add,
      Matrix.transpose_transpose]
    rw [add_comm]
  · show (∑ k, ((tasks k).1 : ℚ) / ∑ j, ((tasks j).1 : ℚ)) = 1
    rw [← Finset.sum_div, div_self (ne_of_gt htot)]

/-- Witness for C8: two concrete tasks with 2 and 1 samples over 2
features. -/
theorem empirical_covariances_postcondition_witness :
    (0 : ℚ) < ∑ j : Fin 2,
        (((![⟨2, !![(1 : ℚ), 0; 0, 1]⟩, ⟨1, !![(2 : ℚ), 3]⟩] : Fin 2 → Task 2) j).1 : ℚ) ∧
    (∑ k, (empirical_covariances false
        (![⟨2, !![(1 : ℚ), 0; 0, 1]⟩, ⟨1, !![(2 : ℚ), 3]⟩] : Fin 2 → Task 2)).2 k) = 1 :=
  ⟨by decide,
   (empirical_covariances_postcondition false _ (by decide)).2.2.2⟩

/-- Characterization of the outer driver loop, proved by induction on the
iteration budget: the sweep count is bounded by the budget, the returned
state is the corresponding sweep iterate, `tol = none` forces a full
budget, an early stop certifies a gap below the tolerance at the final
boundary, and no earlier full-sweep boundary was below the tolerance. -/
theorem outerLoop_spec_aux {St : Type} (sweepF : St → Option St) (gapF : St → ℚ)
    (tol : Option ℚ) :
    ∀ (mi : ℕ) (s0 r : St) (cnt : ℕ),
      outerLoop sweepF gapF tol mi s0 = some (r, cnt) →
      cnt ≤ mi ∧ (1 ≤ mi → 1 ≤ cnt) ∧ sweepsN sweepF cnt s0 = some r ∧
      (tol = none → cnt = mi) ∧
      (∀ t, tol = some t → cnt < mi → gapF r < t) ∧
      (∀ t, tol = some t → ∀ j sj, 1 ≤ j → j < cnt →
        sweepsN sweepF j s0 = some sj → ¬ gapF sj < t) := by
  intro mi
  induction mi with
  | zero =>
    intro s0 r cnt h
    rw [outerLoop] at h
    simp only [Option.some.injEq, Prod.mk.injEq] at h
    obtain ⟨rfl, rfl⟩ := h
    exact ⟨le_refl 0, fun h1 => absurd h1 (by omega), rfl, fun _ => rfl,
      fun t _ hlt => absurd hlt (by omega),
      fun t _ j sj h1 h2 _ => absurd (h1.trans_lt h2) (by omega)⟩
  | succ fuel ih =>
    intro s0 r cnt h
    rw [outerLoop] at h
    obtain ⟨s1, hsw, hh⟩ := Option.bind_eq_some.mp h
    by_cases hcs : checkStop tol (gapF s1) = true
    · rw [if_pos hcs] at hh
      simp only [Option.some.injEq, Prod.mk.injEq] at hh
      obtain ⟨rfl, rfl⟩ := hh
      refine ⟨by omega, fun _ => le_refl 1, ?_, ?_, ?_, ?_⟩
      · show (sweepF s0).bind (sweepsN sweepF 0) = some s1
        rw [hsw]
        rfl
      · intro ht
        rw [ht] at hcs
        simp [checkStop] at hcs
      · intro t ht _
        rw [ht] at hcs
        simpa [checkStop] using hcs
      · intro t _ j sj h1 h2
        omega
    · rw [if_neg hcs] at hh
      obtain ⟨⟨r', c'⟩, hrec, heq⟩ := Option.map_eq_some'.mp hh
      simp only [Prod.mk.injEq] at heq
      obtain ⟨rfl, rfl⟩ := heq
      obtain ⟨hle, -, hsweeps, hnone, hearly, hpast⟩ := ih s1 r' c' hrec
      refine ⟨by omega, fun _ => by omega, ?_, ?_, ?_, ?_⟩
      · show (sweepF s0).bind (sweepsN sweepF c') = some r'
        rw [hsw]
        exact hsweeps
      · intro ht
        rw [hnone ht]
      · intro t ht hlt
        exact hearly t ht (by omega)
      · intro t ht j sj hj1 hjlt hsj
        obtain ⟨jj, rfl⟩ : ∃ jj, j = jj + 1 := ⟨j - 1, by omega⟩
        rw [sweepsN, hsw] at hsj
        rcases Nat.eq_zero_or_pos jj with rfl | hjj
        · have hsj' : sj = s1 := by
            rw [show ((some s1).bind (sweepsN sweepF 0) : Option St) = some s1 from rfl] at hsj
            exact (Option.some.injEq _ _).mp hsj.symm
          subst hsj'
          intro hlt
          apply hcs
          rw [ht]
          simpa [checkStop] using hlt
        · exact hpast t ht jj sj hjj (by omega) hsj

/-- C4: the solver core — the outer driver applied to the concrete sweep
body — executes at least one and at most `max_iter` full sweeps and
returns the sweep iterate it stopped at; with `tol = None` exactly
`max_iter` sweeps run; it stops before exhausting `max_iter` exactly when
the duality gap at a full-sweep boundary is below the tolerance (and no
earlier boundary was); exhausting `max_iter` is not an error — the
current precision estimate is returned. -/
theorem gsc_core_termination {K M : ℕ} (emp : Fin K → Matrix (Fin (M+1)) (Fin (M+1)) ℚ)
    (ns : Fin K → ℚ) (rho : ℚ)
    (gapF : (Fin K → Matrix (Fin (M+1)) (Fin (M+1)) ℚ) → ℚ)
    (tol : Option ℚ) (maxIter : ℕ) (hmi : 1 ≤ maxIter)
    (om0 r : Fin K → Matrix (Fin (M+1)) (Fin (M+1)) ℚ) (cnt : ℕ)
    (hrun : gsc_core emp ns rho gapF tol maxIter om0 = some (r, cnt)) :
    1 ≤ cnt ∧ cnt ≤ maxIter ∧
    sweepsN (sweep emp ns rho) cnt om0 = some r ∧
    (tol = none → cnt = maxIter) ∧
    (∀ t, tol = some t → cnt < maxIter → gapF r < t) ∧
    (∀ t, tol = some t → ∀ j sj, 1 ≤ j → j < cnt →
      sweepsN (sweep emp ns rho) j om0 = some sj → ¬ gapF sj < t) := by
  obtain ⟨hle, h1, hsweeps, hnone, hearly, hpast⟩ :=
    outerLoop_spec_aux (sweep emp ns rho) gapF tol maxIter om0 r cnt hrun
  exact ⟨h1 hmi, hle, hsweeps, hnone, hearly, hpast⟩

/-- Witness for C4: a concrete one-task run over two variables with
`tol = 1` and a gap evaluation that is constantly `0`, stopping after the
first sweep of the allowed two. -/
theorem gsc_core_termination_witness :
    ∃ r cnt, gsc_core (K := 1) (M := 1) (fun _ => !![(1 : ℚ), 0; 0, 1]) (fun _ => 1) 10
        (fun _ => 0) (some 1) 2 (fun _ => !![(1 : ℚ), 0; 0, 1]) = some (r, cnt) ∧
      1 ≤ cnt ∧ cnt ≤ 2 ∧
      sweepsN (sweep (fun _ => !![(1 : ℚ), 0; 0, 1]) (fun _ => 1) 10) cnt
          (fun _ => !![(1 : ℚ), 0; 0, 1]) = some r ∧
      ((some (1 : ℚ) = none → cnt = 2)) := by
  refine ⟨_, _, rfl, ?_⟩
  obtain ⟨h1, h2, h3, h4, -, -⟩ :=
    gsc_core_termination (K := 1) (M := 1) (fun _ => !![(1 : ℚ), 0; 0, 1]) (fun _ => 1) 10
      (fun _ => 0) (some 1) 2 (by decide) (fun _ => !![(1 : ℚ), 0; 0, 1]) _ _ rfl
  exact ⟨h1, h2, h3, h4⟩

/-- Invariant preservation through a monadic fold over `Option`. -/
theorem foldlM_option_inv {α ι : Type*} (f : α → ι → Option α) (P : α → Prop)
    (hf : ∀ a i b, P a → f a i = some b → P b) :
    ∀ (l : List ι) (a b : α), P a → l.foldlM f a = some b → P b := by
  intro l
  induction l with
  | nil =>
    intro a b hPa h
    rw [List.foldlM_nil] at h
    cases h
    exact hPa
  | cons i tl ih =>
    intro a b hPa h
    rw [List.foldlM_cons] at h
    obtain ⟨a', hfa, hrest⟩ := Option.bind_eq_some.mp h
    exact ih a' b (hf a i a' hPa hfa) hrest

/-- Uniform task data keeps the coordinate update uniform: the shared
scalars (`c·c` test, Newton root) are computed jointly, and each per-task
value is the same function of the per-task inputs. -/
theorem coordStep_unif {K M : ℕ} (ns vPP : Fin K → ℚ)
    (Winv : Fin K → Matrix (Fin M) (Fin M) ℚ) (u y : Fin K → Fin M → ℚ) (rho : ℚ)
    (m : Fin M) (hns : Unif ns) (hv : Unif vPP) (hW : Unif Winv) (hu : Unif u)
    (hy : Unif y) (y' : Fin K → Fin M → ℚ) (w : Bool)
    (h : coordStep ns vPP Winv u y rho m = some (y', w)) : Unif y' := by
  have hc : Unif (coordC ns vPP Winv u y m) := by
    intro k k'
    simp only [coordC]
    have hsum : (∑ i ∈ Finset.univ.erase m, Winv k i m * y k i)
        = ∑ i ∈ Finset.univ.erase m, Winv k' i m * y k' i :=
      Finset.sum_congr rfl fun i _ => by rw [hW k k', hy k k']
    rw [hns k k', hv k k', hu k k', hsum]
  have hq : Unif (coordQ ns vPP Winv m) := by
    intro k k'
    simp only [coordQ]
    rw [hns k k', hv k k', hW k k']
  rw [coordStep] at h
  by_cases hifc : 0 ≤ rho ∧
      (∑ k, coordC ns vPP Winv u y m k * coordC ns vPP Winv u y m k) ≤ rho ^ 2
  · rw [if_pos hifc] at h
    simp only [Option.some.injEq, Prod.mk.injEq] at h
    obtain ⟨rfl, -⟩ := h
    intro k k'
    funext i
    show (if i = m then (0 : ℚ) else y k i) = if i = m then 0 else y k' i
    by_cases hi : i = m
    · simp [hi]
    · simp only [if_neg hi]
      exact congrFun (hy k k') i
  · rw [if_neg hifc] at h
    obtain ⟨alpha, hna, heq⟩ := Option.map_eq_some'.mp h
    simp only [Prod.mk.injEq] at heq
    obtain ⟨rfl, -⟩ := heq
    intro k k'
    funext i
    show (if i = m then alpha * coordC ns vPP Winv u y m k
        / (1 + alpha * coordQ ns vPP Winv m k) else y k i)
      = if i = m then alpha * coordC ns vPP Winv u y m k'
        / (1 + alpha * coordQ ns vPP Winv m k') else y k' i
    by_cases hi : i = m
    · simp only [if_pos hi]
      rw [hc k k', hq k k']
    · simp only [if_neg hi]
      exact congrFun (hy k k') i

theorem sweepW_unif {K M : ℕ} (s : SweepState K M) (p : Fin (M+1)) (hom : Unif s.om)
    (hW : Unif s.W) (hWi : Unif s.Winv) : Unif (sweepW s p) := by
  intro k k'
  by_cases hp : p = 0
  · simp only [sweepW, dif_pos hp]
    rw [hom k k']
  · simp only [sweepW, dif_neg hp]
    rw [hom k k', hW k k', hWi k k']

theorem sweepWinv_unif {K M : ℕ} (s : SweepState K M) (p : Fin (M+1)) (hom : Unif s.om)
    (hW : Unif s.W) (hWi : Unif s.Winv) : Unif (sweepWinv s p) := by
  intro k k'
  by_cases hp : p = 0
  · simp only [sweepWinv, dif_pos hp]
    rw [hom k k']
  · simp only [sweepWinv, dif_neg hp]
    rw [hom k k', hW k k', hWi k k']

theorem sweepYfold_unif {K M : ℕ} (emp : Fin K → Matrix (Fin (M+1)) (Fin (M+1)) ℚ)
    (ns : Fin K → ℚ) (rho : ℚ) (s : SweepState K M) (p : Fin (M+1))
    (hemp : Unif emp) (hns : Unif ns) (hom : Unif s.om) (hW : Unif s.W)
    (hWi : Unif s.Winv) (yf : Fin K → Fin M → ℚ)
    (h : sweepYfold emp ns rho s p = some yf) : Unif yf := by
  refine foldlM_option_inv _ Unif ?_ (List.finRange M) (sweepY0 s p) yf ?_ h
  · intro a i b hPa hab
    obtain ⟨⟨y1, w⟩, hcs, hfst⟩ := Option.map_eq_some'.mp hab
    cases hfst
    refine coordStep_unif ns (fun k => emp k p p) (sweepWinv s p) (sweepU emp p) a rho i
      hns (fun k k' => by show emp k p p = emp k' p p; rw [hemp k k'])
      (sweepWinv_unif s p hom hW hWi)
      (fun k k' => ?_) hPa y1 w hcs
    funext j
    simp only [sweepU]
    rw [hemp k k']
  · intro k k'
    funext i
    simp only [sweepY0]
    rw [hom k k']

theorem sweepPStep_unif {K M : ℕ} (emp : Fin K → Matrix (Fin (M+1)) (Fin (M+1)) ℚ)
    (ns : Fin K → ℚ) (rho : ℚ) (s s' : SweepState K M) (p : Fin (M+1))
    (hemp : Unif emp) (hns : Unif ns) (hom : Unif s.om) (hW : Unif s.W)
    (hWi : Unif s.Winv) (h : sweepPStep emp ns rho s p = some s') :
    Unif s'.om ∧ Unif s'.W ∧ Unif s'.Winv := by
  rw [sweepPStep] at h
  obtain ⟨yf, hfold, hs'⟩ := Option.map_eq_some'.mp h
  subst hs'
  have hyf := sweepYfold_unif emp ns rho s p hemp hns hom hW hWi yf hfold
  refine ⟨?_, sweepW_unif s p hom hW hWi, sweepWinv_unif s p hom hW hWi⟩
  intro k k'
  show writeBack (s.om k) p (yf k) (newDiag (emp k p p) (sweepWinv s p k) (yf k))
    = writeBack (s.om k') p (yf k') (newDiag (emp k' p p) (sweepWinv s p k') (yf k'))
  rw [hom k k', hyf k k', hemp k k', sweepWinv_unif s p hom hW hWi k k']

theorem sweep_unif {K M : ℕ} (emp : Fin K → Matrix (Fin (M+1)) (Fin (M+1)) ℚ)
    (ns : Fin K → ℚ) (rho : ℚ) (hemp : Unif emp) (hns : Unif ns)
    (om om' : Fin K → Matrix (Fin (M+1)) (Fin (M+1)) ℚ) (hom : Unif om)
    (h : sweep emp ns rho om = some om') : Unif om' := by
  rw [sweep] at h
  obtain ⟨sf, hfold, hsf⟩ := Option.map_eq_some'.mp h
  subst hsf
  have := foldlM_option_inv (sweepPStep emp ns rho)
    (fun st => Unif st.om ∧ Unif st.W ∧ Unif st.Winv)
    (fun a i b hPa hab => sweepPStep_unif emp ns rho a b i hemp hns hPa.1 hPa.2.1 hPa.2.2 hab)
    (List.finRange (M+1)) ⟨om, fun _ => 0, fun _ => 0⟩ sf
    ⟨hom, fun k k' => rfl, fun k k' => rfl⟩ hfold
  exact this.1

theorem sweepsN_unif {K M : ℕ} (emp : Fin K → Matrix (Fin (M+1)) (Fin (M+1)) ℚ)
    (ns : Fin K → ℚ) (rho : ℚ) (hemp : Unif emp) (hns : Unif ns) :
    ∀ (n : ℕ) (om om' : Fin K → Matrix (Fin (M+1)) (Fin (M+1)) ℚ), Unif om →
      sweepsN (sweep emp ns rho) n om = some om' → Unif om' := by
  intro n
  induction n with
  | zero =>
    intro om om' hom h
    cases h
    exact hom
  | succ n ih =>
    intro om om' hom h
    rw [sweepsN] at h
    obtain ⟨om1, hsw, hrest⟩ := Option.bind_eq_some.mp h
    exact ih om1 om' (sweep_unif emp ns rho hemp hns om om1 hom hsw) hrest

/-- C9: for identical task sample matrices (hence identical empirical
covariances and equal normalized sample weights), the precision matrices
returned by the solver pipeline are identical across all tasks, for any
`rho`, tolerance, duality-gap evaluation and iteration budget. -/
theorem gsc_task_symmetry {K M : ℕ} (tasks : Fin K → Task (M+1)) (rho : ℚ)
    (gapF : (Fin K → Matrix (Fin (M+1)) (Fin (M+1)) ℚ) → ℚ)
    (tol : Option ℚ) (maxIter : ℕ) (htasks : Unif tasks)
    (Om : Fin K → Matrix (Fin (M+1)) (Fin (M+1)) ℚ) (cnt : ℕ)
    (hrun : gsc_full tasks rho gapF tol maxIter = some (Om, cnt)) :
    Unif Om := by
  have hemp : Unif (empirical_covariances false tasks).1 := by
    intro k k'
    show symmetrize (empCov false (tasks k)) = symmetrize (empCov false (tasks k'))
    rw [htasks k k']
  have hns : Unif (empirical_covariances false tasks).2 := by
    intro k k'
    show ((tasks k).1 : ℚ) / _ = ((tasks k').1 : ℚ) / _
    rw [htasks k k']
  have hom0 : Unif (defaultInit (empirical_covariances false tasks).1) := by
    intro k k'
    show Matrix.diagonal _ = Matrix.diagonal _
    rw [hemp k k']
  have hrun' : outerLoop
      (sweep (empirical_covariances false tasks).1 (empirical_covariances false tasks).2 rho)
      gapF tol maxIter (defaultInit (empirical_covariances false tasks).1)
      = some (Om, cnt) := hrun
  obtain ⟨-, -, hsweeps, -, -, -⟩ :=
    outerLoop_spec_aux _ gapF tol maxIter _ Om cnt hrun'
  exact sweepsN_unif (empirical_covariances false tasks).1
    (empirical_covariances false tasks).2 rho hemp hns cnt _ Om hom0 hsweeps

/-- Witness for C9: two identical tasks of two samples over two features,
run with `rho = 10`, `tol = 1` and a constant-zero gap evaluation. -/
theorem gsc_task_symmetry_witness :
    ∃ r cnt, gsc_full (K := 2) (M := 1) (fun _ => ⟨2, !![(1 : ℚ), 0; 0, 1]⟩) 10
        (fun _ => 0) (some 1) 2 = some (r, cnt) ∧ Unif r :=
  ⟨_, _, rfl,
   gsc_task_symmetry (fun _ => ⟨2, !![(1 : ℚ), 0; 0, 1]⟩) 10 (fun _ => 0) (some 1) 2
     (fun _ _ => rfl) _ _ rfl⟩

/-- C1: for nonnegative `rho`, the coordinate solver writes the zero
vector into column `m` exactly when `‖c‖₂ ≤ rho` (i.e. `c·c ≤ rho²`),
with `c_k = -n_samples_k (emp_cov_k[p,p]·⟨h12_k, y1_k⟩ + u_k[m])`, and
otherwise writes `x_k = α·c_k/(1+α·q_k)` with
`q_k = n_samples_k·emp_cov_k[p,p]·Winv_k[m,m]` and `α` the value returned
by Newton-Raphson on `g(α) = rho² - Σ_k c_k²/(1+α·q_k)²` started at
`α = 0` (at most 50 iterations, tolerance `1.5e-6`); the remaining
columns of `y` are untouched. -/
theorem coordStep_correct {K M : ℕ} (ns vPP : Fin K → ℚ)
    (Winv : Fin K → Matrix (Fin M) (Fin M) ℚ) (u y : Fin K → Fin M → ℚ)
    (rho : ℚ) (m : Fin M) (hrho : 0 ≤ rho) :
    ((∑ k, coordC ns vPP Winv u y m k * coordC ns vPP Winv u y m k) ≤ rho ^ 2 →
      ∃ y', coordStep ns vPP Winv u y rho m = some (y', false) ∧
        (∀ k, y' k m = 0) ∧ ∀ k i, i ≠ m → y' k i = y k i) ∧
    (¬ (∑ k, coordC ns vPP Winv u y m k * coordC ns vPP Winv u y m k) ≤ rho ^ 2 →
      ∀ alpha, coordNewton ns vPP Winv u y rho m = some alpha →
        ∃ y' w, coordStep ns vPP Winv u y rho m = some (y', w) ∧
          (∀ k, y' k m = alpha * coordC ns vPP Winv u y m k
              / (1 + alpha * coordQ ns vPP Winv m k)) ∧
          ∀ k i, i ≠ m → y' k i = y k i) ∧
    coordNewton ns vPP Winv u y rho m
      = scipyNewton
          (fun a => quad_trust_region a (coordQ ns vPP Winv m)
            (coordTwoCCQ ns vPP Winv u y m) (coordCC ns vPP Winv u y m) (rho ^ 2))
          (fun a => quad_trust_region_deriv a (coordQ ns vPP Winv m)
            (coordTwoCCQ ns vPP Winv u y m) (coordCC ns vPP Winv u y m) (rho ^ 2))
          (3 / 2000000) 50 0 := by
  refine ⟨fun hle => ?_, fun hgt alpha halpha => ?_, rfl⟩
  · refine ⟨fun k i => if i = m then 0 else y k i, ?_, ?_, ?_⟩
    · rw [coordStep, if_pos ⟨hrho, hle⟩]
    · intro k
      simp
    · intro k i hi
      simp [hi]
  · refine ⟨fun k i => if i = m then alpha * coordC ns vPP Winv u y m k
        / (1 + alpha * coordQ ns vPP Winv m k) else y k i,
      decide (1 / 10 < |quad_trust_region alpha (coordQ ns vPP Winv m)
        (coordTwoCCQ ns vPP Winv u y m) (coordCC ns vPP Winv u y m) (rho ^ 2)|),
      ?_, ?_, ?_⟩
    · rw [coordStep, if_neg (fun h => hgt h.2), halpha]
      rfl
    · intro k
      simp
    · intro k i hi
      simp [hi]

/-- Witness for C1 on the group-sparsity branch: a single task where
`c = 0`, so the zero vector is written. -/
theorem coordStep_correct_witness :
    (∑ k, coordC (K := 1) (M := 1) (fun _ => 1) (fun _ => 1) (fun _ => !![(1 : ℚ)])
        (fun _ _ => 0) (fun _ _ => 0) 0 k *
      coordC (fun _ => 1) (fun _ => 1) (fun _ => !![(1 : ℚ)]) (fun _ _ => 0)
        (fun _ _ => 0) 0 k) ≤ (10 : ℚ) ^ 2 ∧
    ∃ y', coordStep (K := 1) (M := 1) (fun _ => 1) (fun _ => 1) (fun _ => !![(1 : ℚ)])
        (fun _ _ => 0) (fun _ _ => 0) 10 0 = some (y', false) ∧
      (∀ k, y' k 0 = 0) ∧ ∀ k i, i ≠ 0 → y' k i = (fun _ _ => (0 : ℚ)) k i :=
  ⟨by decide,
   (coordStep_correct (fun _ => 1) (fun _ => 1) (fun _ => !![(1 : ℚ)]) (fun _ _ => 0)
      (fun _ _ => 0) 10 0 (by decide)).1 (by decide)⟩

/-- C7: whenever the Newton-Raphson call (started at `α = 0`, at most 50
iterations, tolerance `1.5e-6`) returns a value `α`, the coordinate value
`α·c/(1+α·q)` is written into the precision row and computation
continues, and the ill-conditioning warning fires exactly when the
residual `|g(α)|` exceeds `0.1`. -/
theorem coordStep_warning {K M : ℕ} (ns vPP : Fin K → ℚ)
    (Winv : Fin K → Matrix (Fin M) (Fin M) ℚ) (u y : Fin K → Fin M → ℚ)
    (rho : ℚ) (m : Fin M) (alpha : ℚ)
    (hbr : ¬ (0 ≤ rho ∧
      (∑ k, coordC ns vPP Winv u y m k * coordC ns vPP Winv u y m k) ≤ rho ^ 2))
    (halpha : coordNewton ns vPP Winv u y rho m = some alpha) :
    ∃ y' w, coordStep ns vPP Winv u y rho m = some (y', w) ∧
      (w = true ↔ 1 / 10 < |quad_trust_region alpha (coordQ ns vPP Winv m)
          (coordTwoCCQ ns vPP Winv u y m) (coordCC ns vPP Winv u y m) (rho ^ 2)|) ∧
      (∀ k, y' k m = alpha * coordC ns vPP Winv u y m k
          / (1 + alpha * coordQ ns vPP Winv m k)) ∧
      ∀ k i, i ≠ m → y' k i = y k i := by
  refine ⟨fun k i => if i = m then alpha * coordC ns vPP Winv u y m k
      / (1 + alpha * coordQ ns vPP Winv m k) else y k i,
    decide (1 / 10 < |quad_trust_region alpha (coordQ ns vPP Winv m)
      (coordTwoCCQ ns vPP Winv u y m) (coordCC ns vPP Winv u y m) (rho ^ 2)|),
    ?_, ?_, ?_, ?_⟩
  · rw [coordStep, if_neg hbr, halpha]
    rfl
  · exact decide_eq_true_iff
  · intro k
    simp
  · intro k i hi
    simp [hi]

/-- Witness for C7 exercising the warning path: a degenerate task with
`q = 0` makes the Newton derivative vanish, scipy returns `α = 0`, the
residual is `1 > 0.1`, the warning fires and the value `0` is still
written. -/
theorem coordStep_warning_witness :
    ∃ y' w, coordStep (K := 1) (M := 1) (fun _ => 1) (fun _ => 1) (fun _ => !![(0 : ℚ)])
        (fun _ _ => 1) (fun _ _ => 0) 0 0 = some (y', w) ∧
      (w = true ↔ 1 / 10 < |quad_trust_region 0
          (coordQ (K := 1) (M := 1) (fun _ => 1) (fun _ => 1) (fun _ => !![(0 : ℚ)]) 0)
          (coordTwoCCQ (K := 1) (M := 1) (fun _ => 1) (fun _ => 1) (fun _ => !![(0 : ℚ)])
            (fun _ _ => 1) (fun _ _ => 0) 0)
          (coordCC (K := 1) (M := 1) (fun _ => 1) (fun _ => 1) (fun _ => !![(0 : ℚ)])
            (fun _ _ => 1) (fun _ _ => 0) 0) ((0 : ℚ) ^ 2)|) ∧
      (∀ k, y' k 0 = 0 * coordC (K := 1) (M := 1) (fun _ => 1) (fun _ => 1)
          (fun _ => !![(0 : ℚ)]) (fun _ _ => 1) (fun _ _ => 0) 0 k
          / (1 + 0 * coordQ (K := 1) (M := 1) (fun _ => 1) (fun _ => 1)
              (fun _ => !![(0 : ℚ)]) 0 k)) ∧
      ∀ k i, i ≠ 0 → y' k i = (fun _ _ => (0 : ℚ)) k i :=
  coordStep_warning (fun _ => 1) (fun _ => 1) (fun _ => !![(0 : ℚ)]) (fun _ _ => 1)
    (fun _ _ => 0) 0 0 0 (by decide) (by decide)

theorem detQ_eq_det : ∀ {n : ℕ} (A : Matrix (Fin n) (Fin n) ℚ), detQ A = A.det := by
  intro n
  induction n with
  | zero =>
    intro A
    rw [Matrix.det_fin_zero]
    rfl
  | succ n ih =>
    intro A
    rw [Matrix.det_succ_row_zero]
    show (∑ j : Fin (n+1), (-1) ^ (j : ℕ) * A 0 j * detQ fun i k => A i.succ (j.succAbove k))
      = _
    refine Finset.sum_congr rfl fun j _ => ?_
    rw [ih]
    rfl

/-- Cofactor form of the adjugate, by expansion of the `updateRow`
determinant along row `j`. -/
theorem adjugate_cofactor {n : ℕ} (A : Matrix (Fin (n+1)) (Fin (n+1)) ℚ) (i j : Fin (n+1)) :
    A.adjugate i j = (-1) ^ ((i : ℕ) + (j : ℕ)) * (A.submatrix j.succAbove i.succAbove).det := by
  rw [Matrix.adjugate_apply, Matrix.det_succ_row _ j]
  have hsub : ∀ l : Fin (n+1),
      ((A.updateRow j (Pi.single i 1)).submatrix j.succAbove l.succAbove).det
        = (A.submatrix j.succAbove l.succAbove).det := by
    intro l
    congr 1
    ext a b
    simp only [Matrix.submatrix_apply]
    rw [Matrix.updateRow_ne (Fin.succAbove_ne j a)]
  have hstep : ∀ l : Fin (n+1), (-1) ^ ((j : ℕ) + (l : ℕ))
        * (A.updateRow j (Pi.single i 1)) j l
        * ((A.updateRow j (Pi.single i 1)).submatrix j.succAbove l.succAbove).det
      = if l = i then (-1) ^ ((j : ℕ) + (l : ℕ)) * (A.submatrix j.succAbove l.succAbove).det
        else 0 := by
    intro l
    rw [Matrix.updateRow_self, hsub, Pi.single_apply]
    by_cases hl : l = i
    · simp [hl]
    · simp [hl]
  rw [Finset.sum_congr rfl fun l _ => hstep l, Finset.sum_ite_eq' Finset.univ i]
  simp [Nat.add_comm (j : ℕ) (i : ℕ)]

/-- The cofactor inverse is a left inverse whenever the determinant is
nonzero, i.e. `qinv` faithfully models `numpy.linalg.inv` on nonsingular
input. -/
theorem qinv_mul_left {n : ℕ} (A : Matrix (Fin n) (Fin n) ℚ) (h : A.det ≠ 0) :
    qinv A * A = 1 := by
  cases n with
  | zero =>
    ext i j
    exact i.elim0
  | succ n =>
    have hq : qinv A = A.det⁻¹ • A.adjugate := by
      funext i j
      show (-1) ^ ((i : ℕ) + (j : ℕ)) *
          detQ (fun a b => A (j.succAbove a) (i.succAbove b)) / detQ A
        = (A.det⁻¹ • A.adjugate) i j
      rw [detQ_eq_det, detQ_eq_det, Matrix.smul_apply, adjugate_cofactor]
      have hdet : Matrix.det (fun a b => A (j.succAbove a) (i.succAbove b))
          = (A.submatrix j.succAbove i.succAbove).det := rfl
      rw [hdet, smul_eq_mul, div_eq_mul_inv]
      ring
    rw [hq, Matrix.smul_mul, Matrix.adjugate_mul, smul_smul, inv_mul_cancel₀ h, one_smul]

theorem posDefQ_det_ne_zero {n : ℕ} (A : Matrix (Fin n) (Fin n) ℚ) (h : PosDefQ A) :
    A.det ≠ 0 := by
  intro hdet
  obtain ⟨v, hv, hmv⟩ := Matrix.exists_mulVec_eq_zero_iff.mpr hdet
  have hpos := h v hv
  rw [hmv] at hpos
  simp at hpos

/-- Diagonal entries of the covariance stack positive make the default
initialization symmetric positive definite. -/
theorem defaultInit_spd {K nv : ℕ} (emp : Fin K → Matrix (Fin nv) (Fin nv) ℚ)
    (hd : ∀ k i, 0 < emp k i i) (k : Fin K) :
    (defaultInit emp k)ᵀ = defaultInit emp k ∧ PosDefQ (defaultInit emp k) := by
  constructor
  · show (Matrix.diagonal _)ᵀ = _
    rw [Matrix.diagonal_transpose]
    rfl
  · intro x hx
    have hform : x ⬝ᵥ (defaultInit emp k).mulVec x
        = ∑ i, x i * (1 / emp k i i * x i) := by
      refine Finset.sum_congr rfl fun i _ => ?_
      rw [show (defaultInit emp k).mulVec x i = 1 / emp k i i * x i from
        Matrix.mulVec_diagonal _ _ _]
    rw [hform]
    obtain ⟨i, hi⟩ := Function.ne_iff.mp hx
    refine Finset.sum_pos' (fun j _ => ?_) ⟨i, Finset.mem_univ i, ?_⟩
    · have h1 : 0 ≤ 1 / emp k j j := le_of_lt (one_div_pos.mpr (hd k j))
      nlinarith [mul_self_nonneg (x j)]
    · have h1 : 0 < 1 / emp k i i := one_div_pos.mpr (hd k i)
      have h2 : 0 < x i * x i := mul_self_pos.mpr (by simpa using hi)
      nlinarith

theorem removeRC_writeBack {m : ℕ} (A : Matrix (Fin (m+1)) (Fin (m+1)) ℚ) (p : Fin (m+1))
    (y : Fin m → ℚ) (d : ℚ) : removeRC (writeBack A p y d) p = removeRC A p := by
  funext i j
  simp only [removeRC]
  exact writeBack_apply_off A p y d i j

theorem foldlM_option_mono {α ι : Type*} (f g : α → ι → Option α)
    (hfg : ∀ a i b, f a i = some b → g a i = some b) :
    ∀ (l : List ι) (a b : α), l.foldlM f a = some b → l.foldlM g a = some b := by
  intro l
  induction l with
  | nil =>
    intro a b h
    exact h
  | cons i tl ih =>
    intro a b h
    rw [List.foldlM_cons] at h ⊢
    obtain ⟨a', hfa, hrest⟩ := Option.bind_eq_some.mp h
    rw [hfg a i a' hfa]
    exact ih a' b hrest

/-- Invariant preservation through a fold over `List.finRange`, with the
invariant indexed by the number of processed positions. -/
theorem foldlM_finRange_inv {α : Type*} :
    ∀ (N : ℕ) (f : α → Fin N → Option α) (P : ℕ → α → Prop),
      (∀ (i : Fin N) (a b : α), P (i : ℕ) a → f a i = some b → P ((i : ℕ) + 1) b) →
      ∀ a b, P 0 a → (List.finRange N).foldlM f a = some b → P N b := by
  intro N
  induction N with
  | zero =>
    intro f P hstep a b hP h
    rw [List.finRange_zero, List.foldlM_nil] at h
    cases h
    exact hP
  | succ N ih =>
    intro f P hstep a b hP h
    rw [List.finRange_succ_eq_map, List.foldlM_cons] at h
    obtain ⟨a1, ha1, hrest⟩ := Option.bind_eq_some.mp h
    rw [List.foldlM_map] at hrest
    refine ih (fun s i => f s i.succ) (fun n s => P (n + 1) s) ?_ a1 b ?_ hrest
    · intro i a' b' hP' hf
      have hres := hstep i.succ a' b' (by simpa [Fin.val_succ] using hP') hf
      simpa [Fin.val_succ] using hres
    · exact hstep 0 a a1 (by simpa using hP) ha1

theorem sweepPStepChecked_sub {K M : ℕ} (emp : Fin K → Matrix (Fin (M+1)) (Fin (M+1)) ℚ)
    (ns : Fin K → ℚ) (rho : ℚ) (s : SweepState K M) (p : Fin (M+1)) (s' : SweepState K M)
    (h : sweepPStepChecked emp ns rho s p = some s') :
    sweepPStep emp ns rho s p = some s' := by
  rw [sweepPStepChecked] at h
  by_cases hok : sweepNoBreakdown s p = true
  · rwa [if_pos hok] at h
  · rw [if_neg hok] at h
    cases h

theorem sweepChecked_sub {K M : ℕ} (emp : Fin K → Matrix (Fin (M+1)) (Fin (M+1)) ℚ)
    (ns : Fin K → ℚ) (rho : ℚ) (om om' : Fin K → Matrix (Fin (M+1)) (Fin (M+1)) ℚ)
    (h : sweepChecked emp ns rho om = some om') : sweep emp ns rho om = some om' := by
  rw [sweepChecked] at h
  obtain ⟨sf, hfold, hsf⟩ := Option.map_eq_some'.mp h
  rw [sweep, foldlM_option_mono (sweepPStepChecked emp ns rho) (sweepPStep emp ns rho)
    (fun a i b => sweepPStepChecked_sub emp ns rho a i b) _ _ sf hfold]
  rw [Option.map_some', hsf]

theorem outerLoop_mono {St : Type} (f g : St → Option St)
    (hfg : ∀ s s', f s = some s' → g s = some s') (gapF : St → ℚ) (tol : Option ℚ) :
    ∀ (mi : ℕ) (s r : St) (c : ℕ),
      outerLoop f gapF tol mi s = some (r, c) → outerLoop g gapF tol mi s = some (r, c) := by
  intro mi
  induction mi with
  | zero =>
    intro s r c h
    exact h
  | succ fuel ih =>
    intro s r c h
    rw [outerLoop] at h ⊢
    obtain ⟨s1, hsf, hh⟩ := Option.bind_eq_some.mp h
    rw [hfg s s1 hsf]
    show (if checkStop tol (gapF s1) then some (s1, 1)
        else (outerLoop g gapF tol fuel s1).map fun r => (r.1, r.2 + 1)) = some (r, c)
    by_cases hcs : checkStop tol (gapF s1) = true
    · rw [if_pos hcs]
      rwa [if_pos hcs] at hh
    · rw [if_neg hcs]
      rw [if_neg hcs] at hh
      obtain ⟨⟨r', c'⟩, hrec, heq⟩ := Option.map_eq_some'.mp hh
      rw [ih s1 r' c' hrec, Option.map_some']
      exact congrArg some heq

theorem sweepsN_inv {St : Type} (f : St → Option St) (P : St → Prop)
    (hf : ∀ s s', P s → f s = some s' → P s') :
    ∀ (n : ℕ) (s s' : St), P s → sweepsN f n s = some s' → P s' := by
  intro n
  induction n with
  | zero =>
    intro s s' hP h
    cases h
    exact hP
  | succ n ih =>
    intro s s' hP h
    rw [sweepsN] at h
    obtain ⟨s1, h1, hrest⟩ := Option.bind_eq_some.mp h
    exact ih s1 s' (hf s s1 hP h1) hrest

/-- One gated step preserves the sweep invariant: at `p = 0` the reset
inverse is exact because the submatrix of a positive definite matrix is
nonsingular; at `p ≠ 0` the nonzero-denominator gate makes the
Sherman-Morrison advance exact; the write-back then keeps every
precision matrix symmetric positive definite. -/
theorem sweepPStepChecked_inv {K M : ℕ} (emp : Fin K → Matrix (Fin (M+1)) (Fin (M+1)) ℚ)
    (ns : Fin K → ℚ) (rho : ℚ) (hempd : ∀ k p, 0 < emp k p p)
    (i : Fin (M+1)) (s s' : SweepState K M)
    (hinv : SweepInvariant s (i : ℕ))
    (hstep : sweepPStepChecked emp ns rho s i = some s') :
    SweepInvariant s' ((i : ℕ) + 1) := by
  have hok : sweepNoBreakdown s i = true := by
    by_contra hok
    rw [sweepPStepChecked, if_neg hok] at hstep
    cases hstep
  rw [sweepPStepChecked, if_pos hok, sweepPStep] at hstep
  obtain ⟨yf, hfold, hs'⟩ := Option.map_eq_some'.mp hstep
  subst hs'
  have hWW : ∀ k, sweepW s i k = removeRC (s.om k) i ∧
      sweepWinv s i k * sweepW s i k = 1 := by
    intro k
    by_cases hi : i = 0
    · subst hi
      constructor
      · simp only [sweepW, dif_pos]
      · simp only [sweepW, sweepWinv, dif_pos]
        exact qinv_mul_left _ (posDefQ_det_ne_zero _ (removeRC_posDefQ _ 0 (hinv.1 k).2))
    · have hipos : 0 < (i : ℕ) :=
        Nat.pos_of_ne_zero fun h0 => hi (Fin.ext (by simpa using h0))
      have hlt : (i : ℕ) - 1 < M + 1 := by omega
      obtain ⟨hWk, hWik⟩ := hinv.2 hlt hipos k
      have hcast : (i.pred hi).castSucc = (⟨(i : ℕ) - 1, hlt⟩ : Fin (M+1)) := by
        apply Fin.ext
        simp
      have hsucc : (i.pred hi).succ = i := by
        apply Fin.ext
        simp only [Fin.val_succ, Fin.coe_pred]
        omega
      have hd : ∀ k, smDenom1 (s.om k) (s.W k) (s.Winv k) (i.pred hi) ≠ 0 ∧
          smDenom2 (s.om k) (s.W k) (s.Winv k) (i.pred hi) ≠ 0 := by
        rw [sweepNoBreakdown, dif_neg hi] at hok
        exact of_decide_eq_true hok
      have hsub : s.W k = removeRC (s.om k) (i.pred hi).castSucc := by
        rw [hcast]
        exact hWk
      constructor
      · simp only [sweepW, dif_neg hi]
        show subAfterCol (s.om k) (s.W k) (i.pred hi) = removeRC (s.om k) i
        rw [subAfterCol_removeRC (s.om k) (s.W k) (i.pred hi) hsub, hsucc]
      · simp only [sweepW, sweepWinv, dif_neg hi]
        show subInvAfterCol (s.om k) (s.W k) (s.Winv k) (i.pred hi) *
            subAfterCol (s.om k) (s.W k) (i.pred hi) = 1
        exact subInvAfterCol_mul (s.om k) (s.W k) (s.Winv k) (i.pred hi) hWik
          (hd k).1 (hd k).2
  have hom' : ∀ k, (writeBack (s.om k) i (yf k)
        (newDiag (emp k i i) (sweepWinv s i k) (yf k)))ᵀ
      = writeBack (s.om k) i (yf k) (newDiag (emp k i i) (sweepWinv s i k) (yf k)) ∧
      PosDefQ (writeBack (s.om k) i (yf k)
        (newDiag (emp k i i) (sweepWinv s i k) (yf k))) := by
    intro k
    refine omega_update_keeps_spd (s.om k) i (yf k) (emp k i i) (sweepWinv s i k)
      (hinv.1 k).1 (hinv.1 k).2 (hempd k i) ?_
    rw [← (hWW k).1]
    exact (hWW k).2
  refine ⟨hom', ?_⟩
  intro hlt' hpos' k
  have hidx : (⟨(i : ℕ) + 1 - 1, hlt'⟩ : Fin (M+1)) = i := by
    apply Fin.ext
    simp
  refine ⟨?_, (hWW k).2⟩
  show sweepW s i k = _
  rw [hidx, (hWW k).1,
    ← removeRC_writeBack (s.om k) i (yf k) (newDiag (emp k i i) (sweepWinv s i k) (yf k))]

theorem sweepChecked_inv {K M : ℕ} (emp : Fin K → Matrix (Fin (M+1)) (Fin (M+1)) ℚ)
    (ns : Fin K → ℚ) (rho : ℚ) (hempd : ∀ k p, 0 < emp k p p)
    (om om' : Fin K → Matrix (Fin (M+1)) (Fin (M+1)) ℚ)
    (hom : ∀ k, (om k)ᵀ = om k ∧ PosDefQ (om k))
    (h : sweepChecked emp ns rho om = some om') :
    ∀ k, (om' k)ᵀ = om' k ∧ PosDefQ (om' k) := by
  rw [sweepChecked] at h
  obtain ⟨sf, hfold, hsf⟩ := Option.map_eq_some'.mp h
  have hfin := foldlM_finRange_inv (M+1) (sweepPStepChecked emp ns rho)
    (fun pn st => SweepInvariant st pn)
    (fun i a b hPa hstep => sweepPStepChecked_inv emp ns rho hempd i a b hPa hstep)
    ⟨om, fun _ => 0, fun _ => 0⟩ sf
    ⟨hom, fun _ hpos => absurd hpos (Nat.lt_irrefl 0)⟩ hfold
  subst hsf
  exact hfin.1

/-- End-to-end SPD preservation for the solver core, conditioned on the
run never hitting a Sherman-Morrison breakdown (expressed as success of
the gated run, which the theorem shows agrees with the real run). -/
theorem gsc_checked_spd {K M : ℕ} (emp : Fin K → Matrix (Fin (M+1)) (Fin (M+1)) ℚ)
    (ns : Fin K → ℚ) (rho : ℚ)
    (gapF : (Fin K → Matrix (Fin (M+1)) (Fin (M+1)) ℚ) → ℚ)
    (tol : Option ℚ) (maxIter : ℕ)
    (om0 r : Fin K → Matrix (Fin (M+1)) (Fin (M+1)) ℚ) (cnt : ℕ)
    (hsymmpd : ∀ k, (om0 k)ᵀ = om0 k ∧ PosDefQ (om0 k))
    (hempd : ∀ k p, 0 < emp k p p)
    (hrun : gsc_core_checked emp ns rho gapF tol maxIter om0 = some (r, cnt)) :
    gsc_core emp ns rho gapF tol maxIter om0 = some (r, cnt) ∧
    ∀ k, (r k)ᵀ = r k ∧ PosDefQ (r k) := by
  constructor
  · exact outerLoop_mono (sweepChecked emp ns rho) (sweep emp ns rho)
      (fun s s' => sweepChecked_sub emp ns rho s s') gapF tol maxIter om0 r cnt hrun
  · obtain ⟨-, -, hsweeps, -, -, -⟩ :=
      outerLoop_spec_aux (sweepChecked emp ns rho) gapF tol maxIter om0 r cnt hrun
    exact sweepsN_inv (sweepChecked emp ns rho)
      (fun om => ∀ k, (om k)ᵀ = om k ∧ PosDefQ (om k))
      (fun a b hP hab => sweepChecked_inv emp ns rho hempd a b hP hab) cnt om0 r
      hsymmpd hsweeps

/-- C3: (i) one per-p write-back step — the solved vector into both
off-diagonal positions and the diagonal recomputed as
`1/emp_cov[p,p] + y·Winv·y` — keeps a symmetric positive definite
precision matrix symmetric positive definite whenever `emp_cov[p,p] > 0`
and `Winv` inverts the excluded submatrix; (ii) the default
initialization `diag(1/diag(emp_cov))` is symmetric positive definite for
positive covariance diagonals; and (iii) end to end, every run of the
solver core in which the Sherman-Morrison submatrix maintenance never
divides by zero (success of the gated run, shown to agree step by step
with the real run) returns symmetric positive definite precision
matrices from any symmetric positive definite start — in particular from
the default initialization on valid inputs.  The gating in (iii) is
necessary: a vanishing denominator breaks the maintained inverse
(claim C2's counterexample). -/
theorem omega_spd_claim :
    (∀ (m : ℕ) (A : Matrix (Fin (m+1)) (Fin (m+1)) ℚ) (p : Fin (m+1)) (y : Fin m → ℚ)
        (v : ℚ) (Winv : Matrix (Fin m) (Fin m) ℚ),
      Aᵀ = A → PosDefQ A → 0 < v → Winv * removeRC A p = 1 →
      (writeBack A p y (newDiag v Winv y))ᵀ = writeBack A p y (newDiag v Winv y) ∧
      PosDefQ (writeBack A p y (newDiag v Winv y))) ∧
    (∀ (K nv : ℕ) (emp : Fin K → Matrix (Fin nv) (Fin nv) ℚ),
      (∀ k i, 0 < emp k i i) → ∀ k,
      (defaultInit emp k)ᵀ = defaultInit emp k ∧ PosDefQ (defaultInit emp k)) ∧
    (∀ (K M : ℕ) (emp : Fin K → Matrix (Fin (M+1)) (Fin (M+1)) ℚ) (ns : Fin K → ℚ)
        (rho : ℚ) (gapF : (Fin K → Matrix (Fin (M+1)) (Fin (M+1)) ℚ) → ℚ)
        (tol : Option ℚ) (maxIter : ℕ)
        (om0 r : Fin K → Matrix (Fin (M+1)) (Fin (M+1)) ℚ) (cnt : ℕ),
      (∀ k, (om0 k)ᵀ = om0 k ∧ PosDefQ (om0 k)) → (∀ k p, 0 < emp k p p) →
      gsc_core_checked emp ns rho gapF tol maxIter om0 = some (r, cnt) →
      gsc_core emp ns rho gapF tol maxIter om0 = some (r, cnt) ∧
      ∀ k, (r k)ᵀ = r k ∧ PosDefQ (r k)) :=
  ⟨fun _ A p y v Winv hA hpd hv hW => omega_update_keeps_spd A p y v Winv hA hpd hv hW,
   fun _ _ emp hd k => defaultInit_spd emp hd k,
   fun _ _ emp ns rho gapF tol maxIter om0 r cnt h1 h2 h3 =>
     gsc_checked_spd emp ns rho gapF tol maxIter om0 r cnt h1 h2 h3⟩

/-- Witness for C3: the step part at the 2×2 identity, and a concrete
gated two-variable run that succeeds, agrees with the real run and
returns a symmetric positive definite stack. -/
theorem omega_spd_claim_witness :
    ((writeBack (1 : Matrix (Fin 2) (Fin 2) ℚ) 0 (fun _ => 3)
        (newDiag 1 (1 : Matrix (Fin 1) (Fin 1) ℚ) fun _ => 3))ᵀ
      = writeBack (1 : Matrix (Fin 2) (Fin 2) ℚ) 0 (fun _ => 3)
        (newDiag 1 (1 : Matrix (Fin 1) (Fin 1) ℚ) fun _ => 3) ∧
     PosDefQ (writeBack (1 : Matrix (Fin 2) (Fin 2) ℚ) 0 (fun _ => 3)
        (newDiag 1 (1 : Matrix (Fin 1) (Fin 1) ℚ) fun _ => 3))) ∧
    (∃ r cnt, gsc_core_checked (K := 1) (M := 1) (fun _ => !![(1 : ℚ), 0; 0, 1])
        (fun _ => 1) 10 (fun _ => 0) (some 1) 2
        (fun _ => (1 : Matrix (Fin 2) (Fin 2) ℚ)) = some (r, cnt) ∧
      gsc_core (K := 1) (M := 1) (fun _ => !![(1 : ℚ), 0; 0, 1])
        (fun _ => 1) 10 (fun _ => 0) (some 1) 2
        (fun _ => (1 : Matrix (Fin 2) (Fin 2) ℚ)) = some (r, cnt) ∧
      ∀ k, (r k)ᵀ = r k ∧ PosDefQ (r k)) :=
  ⟨omega_spd_claim.1 1 (1 : Matrix (Fin 2) (Fin 2) ℚ) 0 (fun _ => 3) 1
      (1 : Matrix (Fin 1) (Fin 1) ℚ) (by decide) one_posDefQ (by decide) (by decide),
   ⟨_, _, rfl,
    omega_spd_claim.2.2 1 1 (fun _ => !![(1 : ℚ), 0; 0, 1]) (fun _ => 1) 10 (fun _ => 0)
      (some 1) 2 (fun _ => (1 : Matrix (Fin 2) (Fin 2) ℚ)) _ _
      (fun _ => ⟨Matrix.transpose_one, one_posDefQ⟩) (by decide) rfl⟩⟩

end GroupSparse
